import Mathlib

/-!
# RepoMap — verification of the incremental repository indexing engine

Shallow embedding of the core of the RepoMap CLI (packages/core and
packages/cli): the file walker with layered ignore semantics, the
content-addressed file index and its diff, the module-boundary resolver and
the incremental-update orchestrator.  JavaScript strings are modelled as
Lean `String` (operations implemented over `String.data` so that concrete
instances evaluate in the kernel), JS `Map`/`Set` as association lists /
deduplicated lists with the same last-wins / first-insertion semantics,
and filesystem reads as explicit function parameters.
-/

namespace RepoMap

/-- Strict ordinal (code-point) comparison of character lists.  Models
JavaScript's `<` on strings, which `compareNames` (identical in
`file-index.ts`, `entry-detector.ts`, `module-detector.ts` and
`cli/src/index.ts`) uses to order names: `left < right ? -1 : 1`. -/
def charsLt : List Char → List Char → Bool
  | [], [] => false
  | [], _ :: _ => true
  | _ :: _, [] => false
  | a :: as, b :: bs => if a < b then true else if b < a then false else charsLt as bs

/-- Ordinal code-point `<` on strings (JS `left < right`). -/
def strLt (a b : String) : Bool := charsLt a.data b.data

/-- The non-strict order induced by the `compareNames` comparator: `a` sorts
no later than `b` iff `¬ (b < a)`. -/
def strLe (a b : String) : Bool := !(strLt b a)

theorem charsLt_irrefl : ∀ l : List Char, charsLt l l = false
  | [] => rfl
  | a :: as => by simp [charsLt, charsLt_irrefl as]

theorem charsLt_trans : ∀ {a b c : List Char},
    charsLt a b = true → charsLt b c = true → charsLt a c = true
  | [], _ :: _, _ :: _, _, _ => rfl
  | a :: as, b :: bs, c :: cs, hab, hbc => by
    simp only [charsLt] at hab hbc ⊢
    rcases lt_trichotomy a b with h₁ | h₁ | h₁
    · rcases lt_trichotomy b c with h₂ | h₂ | h₂
      · simp [lt_trans h₁ h₂]
      · subst h₂; simp [h₁]
      · exfalso; simp [not_lt_of_gt h₂, h₂] at hbc
    · subst h₁
      rcases lt_trichotomy a c with h₂ | h₂ | h₂
      · simp [h₂]
      · subst h₂
        simp only [lt_irrefl, if_false] at hab hbc ⊢
        exact charsLt_trans hab hbc
      · exfalso; simp [not_lt_of_gt h₂, h₂] at hbc
    · exfalso; simp [not_lt_of_gt h₁, h₁] at hab

theorem charsLt_asymm : ∀ {a b : List Char},
    charsLt a b = true → charsLt b a = false := by
  intro a b hab
  cases hba : charsLt b a with
  | false => rfl
  | true =>
    have h : charsLt a a = true := charsLt_trans hab hba
    rw [charsLt_irrefl a] at h
    simp at h

theorem charsLt_connex : ∀ {a b : List Char}, a ≠ b →
    charsLt a b = true ∨ charsLt b a = true
  | [], [], h => absurd rfl h
  | [], _ :: _, _ => Or.inl rfl
  | _ :: _, [], _ => Or.inr rfl
  | a :: as, b :: bs, h => by
    rcases lt_trichotomy a b with h₁ | h₁ | h₁
    · exact Or.inl (by simp [charsLt, h₁])
    · subst h₁
      have : as ≠ bs := fun hh => h (by rw [hh])
      rcases charsLt_connex this with h₂ | h₂
      · exact Or.inl (by simp [charsLt, h₂])
      · exact Or.inr (by simp [charsLt, h₂])
    · exact Or.inr (by simp [charsLt, h₁])

theorem String.data_injective : Function.Injective String.data :=
  fun a b h => congrArg String.mk h

theorem strLt_irrefl (a : String) : strLt a a = false := charsLt_irrefl a.data

theorem strLt_trans {a b c : String} (hab : strLt a b = true)
    (hbc : strLt b c = true) : strLt a c = true := charsLt_trans hab hbc

theorem strLt_asymm {a b : String} (hab : strLt a b = true) :
    strLt b a = false := charsLt_asymm hab

theorem strLt_connex {a b : String} (h : a ≠ b) :
    strLt a b = true ∨ strLt b a = true :=
  charsLt_connex fun hd => h (String.data_injective hd)

theorem strLe_total (a b : String) : strLe a b = true ∨ strLe b a = true := by
  simp only [strLe, Bool.not_eq_true']
  cases hab : strLt a b with
  | true => exact Or.inl (strLt_asymm hab)
  | false => exact Or.inr rfl

theorem strLe_trans {a b c : String} (hab : strLe a b = true)
    (hbc : strLe b c = true) : strLe a c = true := by
  simp only [strLe, Bool.not_eq_true'] at hab hbc ⊢
  cases hca : strLt c a with
  | false => rfl
  | true =>
    exfalso
    by_cases hcb : c = b
    · subst hcb; rw [hca] at hab; simp at hab
    · rcases strLt_connex hcb with h₁ | h₁
      · rw [h₁] at hbc; simp at hbc
      · have h₂ := strLt_trans h₁ hca
        rw [h₂] at hab; simp at hab

theorem strLe_of_lt {a b : String} (h : strLt a b = true) : strLe a b = true := by
  simp [strLe, strLt_asymm h]

theorem strLt_of_le_of_ne {a b : String} (hle : strLe a b = true)
    (hne : a ≠ b) : strLt a b = true := by
  rcases strLt_connex hne with h | h
  · exact h
  · exact absurd hle (by simp [strLe, h])

/-- `list.sort(compareNames)`-style sort keyed by a string projection, as used
to order file-index entries, change-set paths and module paths.  JS
`Array.prototype.sort` with the `compareNames` comparator produces the unique
ordering by ascending key (stable; keys in our uses are distinct). -/
def sortByKey {α : Type} (key : α → String) (l : List α) : List α :=
  List.insertionSort (fun x y => strLe (key x) (key y) = true) l

theorem sortByKey_perm {α : Type} (key : α → String) (l : List α) :
    (sortByKey key l).Perm l :=
  List.perm_insertionSort _ l

theorem sortByKey_sorted {α : Type} (key : α → String) (l : List α) :
    (sortByKey key l).Pairwise (fun x y => strLe (key x) (key y) = true) :=
  @List.sorted_insertionSort α _ _
    ⟨fun a b => strLe_total (key a) (key b)⟩
    ⟨fun _ _ _ => strLe_trans⟩ l

theorem sortByKey_mem {α : Type} (key : α → String) (l : List α) (x : α) :
    x ∈ sortByKey key l ↔ x ∈ l :=
  (sortByKey_perm key l).mem_iff

/-- Sorting a plain path list (`added.sort(compareNames)` etc.). -/
def sortStrings (l : List String) : List String := sortByKey id l

/-! ## File walker (`entry-detector.ts`, second half: `walkFiles` / `collectFiles`)

A directory tree is modelled inductively; `walkList` is the pure meaning of
the explicit-stack depth-first loop of `walkFiles` (lines 504-644): the
`enter` frame reads and name-sorts a directory's entries (`readDirEntries`,
lines 450-478), the `iterate` frames then process them in ascending name
order, yielding files and descending into subdirectories depth-first, both
subject to `isIgnored` and the `maxDepth` guard (`frame.depth + 1 > maxDepth`).
`ign rel isDir` abstracts the ignore decision
`isIgnored(relPosix, isDir, ignoreStack, overrideMatcher)`; it is
instantiated with the concrete layered-matcher model below.  Symlink
entries are not modelled (policy `skip`, the default).  Paths are segment
lists; `joinPath` recovers the emitted `relPosix` string.  The `fuel`
argument only makes the recursion structural (hence kernel-computable): it
bounds the number of loop iterations of the stack machine, every fuel at
least the total size of the tree yields the complete walk, and the sorted-
output theorems below hold for every fuel. -/

inductive FsEntry where
  | file (name : String)
  | dir (name : String) (entries : List FsEntry)

def FsEntry.name : FsEntry → String
  | .file n => n
  | .dir n _ => n

/-- `entries.sort((l, r) => compareNames(l.name, r.name))` in `readDirEntries`. -/
def sortEntries (es : List FsEntry) : List FsEntry := sortByKey FsEntry.name es

/-- Slash-joining a segment list: `path.posix.join` behaviour for the
relative segment lists used throughout (the walker's
`path.join(frame.dirPath, entry.name)` made repo-relative). -/
def joinPath : List String → String
  | [] => ""
  | [s] => s
  | s :: s' :: rest => s ++ "/" ++ joinPath (s' :: rest)

/-- `frame.depth + 1 > maxDepth` (with `maxDepth = Number.POSITIVE_INFINITY`
modelled as `none`). -/
def depthExceeded (maxDepth : Option Nat) (depth : Nat) : Bool :=
  match maxDepth with
  | none => false
  | some m => depth + 1 > m

def walkList (ign : String → Bool → Bool) (maxDepth : Option Nat) :
    Nat → Nat → List String → List FsEntry → List (List String)
  | 0, _, _, _ => []
  | _ + 1, _, _, [] => []
  | fuel + 1, depth, pre, e :: rest =>
    (match e with
     | .file n =>
       if ign (joinPath (pre ++ [n])) false then [] else [pre ++ [n]]
     | .dir n sub =>
       if ign (joinPath (pre ++ [n])) true then []
       else if depthExceeded maxDepth depth then []
       else walkList ign maxDepth fuel (depth + 1) (pre ++ [n]) (sortEntries sub))
    ++ walkList ign maxDepth fuel depth pre rest

/-- The full walk of a tree `t` (the root directory's entries), in yield
order, as segment lists. -/
def walkFiles (ign : String → Bool → Bool) (maxDepth : Option Nat)
    (fuel : Nat) (t : List FsEntry) : List (List String) :=
  walkList ign maxDepth fuel 0 [] (sortEntries t)

/-- `collectFiles`: the walk as the `relPosix` strings actually yielded
(`pathStyle = "posix"`, the CLI's setting). -/
def collectFiles (ign : String → Bool → Bool) (maxDepth : Option Nat)
    (fuel : Nat) (t : List FsEntry) : List String :=
  (walkFiles ign maxDepth fuel t).map joinPath

/-- Well-formedness of a real directory tree: sibling names are distinct at
every level (a filesystem directory cannot contain two equally-named
entries).  Recursion mirrors `walkList` so the two functions consume fuel
identically. -/
def wfs : Nat → List FsEntry → Bool
  | 0, _ => false
  | _ + 1, [] => true
  | fuel + 1, e :: rest =>
    !(decide (FsEntry.name e ∈ rest.map FsEntry.name)) &&
    (match e with
     | .file _ => true
     | .dir _ sub => wfs fuel (sortEntries sub)) &&
    wfs fuel rest

/-- Strict segment-wise lexicographic order on paths-as-segment-lists:
`a` before `b` iff at the first differing segment `a`'s segment is
ordinally smaller, or `a`'s segments are a proper prefix of `b`'s. -/
def segLt : List String → List String → Bool
  | [], [] => false
  | [], _ :: _ => true
  | _ :: _, [] => false
  | a :: as, b :: bs => strLt a b || (a == b && segLt as bs)

theorem segLt_append : ∀ (pre a b : List String),
    segLt (pre ++ a) (pre ++ b) = segLt a b
  | [], _, _ => rfl
  | p :: ps, a, b => by
    simp only [List.cons_append, segLt, strLt_irrefl p, beq_self_eq_true,
      Bool.false_or, Bool.true_and]
    exact segLt_append ps a b

theorem segLt_cons_of_lt {n m : String} (h : strLt n m = true)
    (r₁ r₂ : List String) : segLt (n :: r₁) (m :: r₂) = true := by
  simp [segLt, h]

theorem walkList_shape (ign : String → Bool → Bool) (md : Option Nat) :
    ∀ (fuel depth : Nat) (pre : List String) (es : List FsEntry)
      (p : List String), p ∈ walkList ign md fuel depth pre es →
      ∃ n rest, p = pre ++ n :: rest ∧ n ∈ es.map FsEntry.name := by
  intro fuel
  induction fuel with
  | zero => intro depth pre es p hp; simp [walkList] at hp
  | succ fuel ih =>
    intro depth pre es p hp
    match es with
    | [] => simp [walkList] at hp
    | e :: rest =>
      simp only [walkList] at hp
      rcases List.mem_append.mp hp with hblock | htail
      · match e with
        | .file n =>
          simp only [] at hblock
          by_cases hig : ign (joinPath (pre ++ [n])) false = true
          · simp [hig] at hblock
          · simp only [hig] at hblock
            simp only [Bool.false_eq_true, if_false, List.mem_singleton] at hblock
            exact ⟨n, [], by simpa using hblock, by simp [FsEntry.name]⟩
        | .dir n sub =>
          simp only [] at hblock
          by_cases hig : ign (joinPath (pre ++ [n])) true = true
          · simp [hig] at hblock
          · by_cases hd : depthExceeded md depth = true
            · simp [hig, hd] at hblock
            · simp only [hig, hd, Bool.false_eq_true, if_false] at hblock
              obtain ⟨n', rest', hp', _⟩ := ih _ _ _ _ hblock
              exact ⟨n, n' :: rest', by simp [hp'], by simp [FsEntry.name]⟩
      · obtain ⟨n', rest', hp', hn'⟩ := ih _ _ _ _ htail
        exact ⟨n', rest', hp', by simp at hn' ⊢; exact Or.inr hn'⟩

theorem walkList_sorted (ign : String → Bool → Bool) (md : Option Nat) :
    ∀ (fuel depth : Nat) (pre : List String) (es : List FsEntry),
      wfs fuel es = true →
      (es.map FsEntry.name).Pairwise (fun a b => strLe a b = true) →
      (walkList ign md fuel depth pre es).Pairwise
        (fun a b => segLt a b = true) := by
  intro fuel
  induction fuel with
  | zero => intro depth pre es _ _; simp [walkList]
  | succ fuel ih =>
    intro depth pre es hwf hsort
    match es with
    | [] => simp [walkList]
    | e :: rest =>
      simp only [wfs] at hwf
      simp only [Bool.and_eq_true, Bool.not_eq_true', decide_eq_false_iff_not] at hwf
      obtain ⟨⟨hname, hwfblock⟩, hwfrest⟩ := hwf
      simp only [List.map_cons, List.pairwise_cons] at hsort
      obtain ⟨hhead, htailsort⟩ := hsort
      simp only [walkList]
      apply List.pairwise_append.mpr
      refine ⟨?_, ih _ _ _ hwfrest htailsort, ?_⟩
      · -- the head entry's own block is sorted
        match e with
        | .file n =>
          by_cases hig : ign (joinPath (pre ++ [n])) false = true
          · simp [hig]
          · simp [hig]
        | .dir n sub =>
          by_cases hig : ign (joinPath (pre ++ [n])) true = true
          · simp [hig]
          · by_cases hd : depthExceeded md depth = true
            · simp [hig, hd]
            · simp only [hig, hd, Bool.false_eq_true, if_false]
              refine ih _ _ _ hwfblock ?_
              have := sortByKey_sorted FsEntry.name sub
              exact List.pairwise_map.mpr this
      · -- every element of the head block precedes every element of the tail walk
        intro x hx y hy
        obtain ⟨m, r₂, hy', hm⟩ := walkList_shape ign md _ _ _ _ _ hy
        have hxshape : ∃ r₁, x = pre ++ FsEntry.name e :: r₁ := by
          match e with
          | .file n =>
            by_cases hig : ign (joinPath (pre ++ [n])) false = true
            · simp [hig] at hx
            · simp only [hig, Bool.false_eq_true, if_false, List.mem_singleton] at hx
              exact ⟨[], by simpa [FsEntry.name] using hx⟩
          | .dir n sub =>
            by_cases hig : ign (joinPath (pre ++ [n])) true = true
            · simp [hig] at hx
            · by_cases hd : depthExceeded md depth = true
              · simp [hig, hd] at hx
              · simp only [hig, hd, Bool.false_eq_true, if_false] at hx
                obtain ⟨n', r', hx', _⟩ := walkList_shape ign md _ _ _ _ _ hx
                exact ⟨n' :: r', by simp [hx', FsEntry.name]⟩
        obtain ⟨r₁, hx'⟩ := hxshape
        have hlt : strLt (FsEntry.name e) m = true := by
          refine strLt_of_le_of_ne (hhead m hm) ?_
          intro hEq
          exact hname (hEq ▸ hm)
        rw [hx', hy', segLt_append]
        exact segLt_cons_of_lt hlt r₁ r₂

/-- The ignore decision with no patterns at all: nothing is ignored. -/
def noIgn : String → Bool → Bool := fun _ _ => false

/-- A two-entry root: a directory `a` containing file `b`, next to a file
`a.c`.  Sorted sibling order is `a`, `a.c` (since `"a" < "a.c"`), so the
walk emits `a/b` before `a.c` — but ordinally `"a.c" < "a/b"` because
`'.'` (0x2E) precedes `'/'` (0x2F). -/
def c1Tree : List FsEntry := [.dir "a" [.file "b"], .file "a.c"]

/-- C1, counterexample: the walk of `c1Tree` (a well-formed tree, no ignore
patterns, no depth limit) yields `a/b` before `a.c`, yet
`"a/b" < "a.c"` is false under ordinal code-point comparison — the yielded
sequence of `walkFiles` (hence `collectFiles`) is *not* sorted ascending by
RepoPath under ordinal comparison. -/
theorem c1_counterexample :
    collectFiles noIgn none 40 c1Tree = ["a/b", "a.c"] ∧
    wfs 40 (sortEntries c1Tree) = true ∧
    ¬ (collectFiles noIgn none 40 c1Tree).Pairwise
        (fun p q => strLt p q = true) := by
  refine ⟨rfl, by decide, fun h => ?_⟩
  rw [show collectFiles noIgn none 40 c1Tree = ["a/b", "a.c"] from rfl] at h
  have h1 := (List.pairwise_cons.mp h).1 "a.c" (by simp)
  exact absurd h1 (by decide)

/-- C1 (amended): for every directory tree whose sibling names are distinct
at each level, the sequence of paths yielded by `walkFiles` (and hence
returned by `collectFiles`) is sorted strictly ascending under segment-wise
ordinal comparison of the slash-separated paths (ordinal code-point order
on each segment, directory boundaries compared before segment contents) —
a direct consequence of sorted directory enumeration plus depth-first
emission.  Plain ordinal code-point order on the joined strings differs
from this order exactly when a sibling name extends a directory name with a
character below `'/'`, as in `c1_counterexample`. -/
theorem c1_walk_sorted_by_segments (ign : String → Bool → Bool)
    (md : Option Nat) (fuel : Nat) (t : List FsEntry)
    (hwf : wfs fuel (sortEntries t) = true) :
    (walkFiles ign md fuel t).Pairwise (fun a b => segLt a b = true) :=
  walkList_sorted ign md fuel 0 [] (sortEntries t) hwf
    (List.pairwise_map.mpr (sortByKey_sorted FsEntry.name t))

theorem c1_witness :
    wfs 40 (sortEntries c1Tree) = true ∧
    (walkFiles noIgn none 40 c1Tree).Pairwise (fun a b => segLt a b = true) :=
  ⟨by decide, c1_walk_sorted_by_segments noIgn none 40 c1Tree (by decide)⟩

/-! ## Layered ignore semantics (`entry-detector.ts` lines 260-448)

`isIgnored` combines a stack of `(baseRel, matcher)` pairs with a final
override matcher; each matcher is the third-party `ignore` npm package
compiled from gitignore-style patterns.  The matcher itself is not part of
this repository; `parseGitPattern` / `gitPatternMatches` / `matcherTest`
below are modelled from the spec's description of its gitignore semantics
(§4.2: last applicable match wins, negation unignores, directory-only
patterns, patterns without an inner slash match at any depth, a pattern
also matches everything below a directory it matches).  `isIgnored`,
`relativeToBase`, `createMatcher` and `DEFAULT_IGNORES` are translated
directly from the source. -/

def splitChars (sep : Char) : List Char → List (List Char)
  | [] => [[]]
  | c :: rest =>
    let r := splitChars sep rest
    if c == sep then [] :: r
    else
      match r with
      | [] => [[c]]
      | seg :: segs => (c :: seg) :: segs

/-- `value.split("/")` (JS `String.prototype.split` with a one-character
separator). -/
def splitOnSlash (s : String) : List String := (splitChars '/' s.data).map String.mk

/-- `pre.data.isPrefixOf s.data`: JS `String.prototype.startsWith`. -/
def strStartsWith (s pre : String) : Bool := pre.data.isPrefixOf s.data

/-- Modelled from the spec: one parsed gitignore-style pattern of the
external `ignore` package (negation flag, directory-only flag, anchoring,
slash-separated glob segments; a trailing `**` matches one or more
segments, encoded by appending `*`). -/
structure GitPattern where
  negated : Bool
  dirOnly : Bool
  anchored : Bool
  segs : List String

def parseGitPattern (raw : String) : GitPattern :=
  let cs := raw.data
  let negated := match cs with | '!' :: _ => true | _ => false
  let cs := match cs with | '!' :: rest => rest | _ => cs
  let dirOnly := cs.getLast? == some '/'
  let cs := if dirOnly then cs.dropLast else cs
  let lead := match cs with | '/' :: _ => true | _ => false
  let cs := match cs with | '/' :: rest => rest | _ => cs
  let segs := (splitChars '/' cs).map String.mk
  let segs := if segs.getLast? == some "**" then segs ++ ["*"] else segs
  { negated := negated
    dirOnly := dirOnly
    anchored := lead || segs.length > 1
    segs := segs }

/-- Modelled from the spec: single-segment glob matching (`*` any characters
within a segment, `?` one character); fuel-structural backtracker, any fuel
above `pattern.length + input.length` is enough. -/
def segGlob : Nat → List Char → List Char → Bool
  | 0, _, _ => false
  | _ + 1, [], [] => true
  | _ + 1, [], _ :: _ => false
  | fuel + 1, '*' :: ps, cs =>
    segGlob fuel ps cs ||
      (match cs with
       | [] => false
       | _ :: cs' => segGlob fuel ('*' :: ps) cs')
  | fuel + 1, '?' :: ps, cs =>
    (match cs with
     | [] => false
     | _ :: cs' => segGlob fuel ps cs')
  | fuel + 1, p :: ps, cs =>
    match cs with
    | [] => false
    | c :: cs' => p == c && segGlob fuel ps cs'

/-- Modelled from the spec: matching a list of pattern segments against a
list of path segments, `**` spanning any number of segments. -/
def segsMatch : Nat → List String → List String → Bool
  | 0, _, _ => false
  | _ + 1, [], [] => true
  | _ + 1, [], _ :: _ => false
  | fuel + 1, p :: ps, segs =>
    if p == "**" then
      segsMatch fuel ps segs ||
        (match segs with
         | [] => false
         | _ :: segs' => segsMatch fuel (p :: ps) segs')
    else
      match segs with
      | [] => false
      | s :: segs' =>
        segGlob (p.length + s.length + 1) p.data s.data && segsMatch fuel ps segs'

/-- All splits of a path into a nonempty leading prefix and the rest. -/
def nonemptyPrefixes : List String → List (List String × List String)
  | [] => []
  | s :: rest =>
    ([s], rest) :: (nonemptyPrefixes rest).map (fun ab => (s :: ab.1, ab.2))

/-- Modelled from the spec: does one gitignore pattern apply to a path?  It
applies if it matches the path itself (a directory-only pattern requires
the path to be a directory) or any proper ancestor of the path (everything
below a matched directory is matched). -/
def gitPatternMatches (pat : GitPattern) (segs : List String)
    (isDir : Bool) : Bool :=
  (nonemptyPrefixes segs).any fun ab =>
    (match pat.anchored, ab.1.getLast? with
     | true, _ => segsMatch (pat.segs.length + ab.1.length + 1) pat.segs ab.1
     | false, some s =>
       (match pat.segs with
        | [p] => segGlob (p.length + s.length + 1) p.data s.data
        | _ => false)
     | false, none => false) &&
    (!ab.2.isEmpty || isDir || !pat.dirOnly)

/-- The result of the `ignore` package's `matcher.test(path)`. -/
structure TestResult where
  ignored : Bool
  unignored : Bool

/-- Modelled from the spec: `matcher.test` — evaluate the patterns in listed
order, last matching pattern wins; a negated winner reports `unignored`.
The walker's `toMatchPath` (trailing slash on directories) is carried by
the `isDir` flag. -/
def matcherTest (patterns : List String) (relPath : String)
    (isDir : Bool) : TestResult :=
  let segs := splitOnSlash relPath
  patterns.foldl
    (fun acc raw =>
      let pat := parseGitPattern raw
      if gitPatternMatches pat segs isDir then
        if pat.negated then ⟨false, true⟩ else ⟨true, false⟩
      else acc)
    ⟨false, false⟩

/-- One layer of the ignore stack: patterns scoped to a base directory. -/
structure IgnoreMatcher where
  baseRel : String
  patterns : List String

/-- `relativeToBase` (entry-detector.ts lines 414-420). -/
def relativeToBase (relPosix baseRel : String) : Option String :=
  if baseRel.length = 0 then some relPosix
  else if relPosix == baseRel then some ""
  else
    let base := baseRel ++ "/"
    if strStartsWith relPosix base then some ⟨relPosix.data.drop base.length⟩
    else none

/-- `createMatcher` (lines 402-406): no patterns, no matcher. -/
def createMatcher (patterns : List String) (baseRel : String) :
    Option IgnoreMatcher :=
  if patterns.isEmpty then none else some ⟨baseRel, patterns⟩

/-- `isIgnored` (lines 422-448): fold the stack in order, then the override
matcher last; within each applicable matcher `result.ignored` sets and
`result.unignored` clears the accumulator. -/
def isIgnored (relPosix : String) (isDir : Bool) (stack : List IgnoreMatcher)
    (override : Option IgnoreMatcher) : Bool :=
  if relPosix.length = 0 then false
  else
    let step := fun (ignored : Bool) (m : IgnoreMatcher) =>
      match relativeToBase relPosix m.baseRel with
      | none => ignored
      | some rel =>
        let r := matcherTest m.patterns rel isDir
        if r.ignored then true else if r.unignored then false else ignored
    let afterStack := stack.foldl step false
    match override with
    | none => afterStack
    | some m => step afterStack m

/-- `DEFAULT_IGNORES` (lines 282-298). -/
def DEFAULT_IGNORES : List String :=
  [".git/", ".hg/", ".svn/", ".repomap/", "node_modules/", "dist/",
   "build/", "out/", ".next/", ".nuxt/", ".cache/", ".turbo/", ".yarn/",
   ".pnpm/", "coverage/"]

/-- The ignore decision used by `walkFiles`: the root stack holds the
default-ignore matcher (no `.gitignore` files are present in the trees
considered), the caller-supplied override matcher is evaluated last. -/
def walkIgn (defaults overrides : List String) : String → Bool → Bool :=
  fun rel isDir =>
    isIgnored rel isDir
      (match createMatcher defaults "" with
       | none => []
       | some m => [m])
      (createMatcher overrides "")

/-- The C3 scenario tree: `node_modules/{other,pkg}/index.js` plus
`src/a.js`. -/
def c3Tree : List FsEntry :=
  [.dir "node_modules"
     [.dir "other" [.file "index.js"], .dir "pkg" [.file "index.js"]],
   .dir "src" [.file "a.js"]]

/-- C3, counterexample: with the built-in default ignore set active and the
caller-supplied override `!node_modules/pkg/**`, the walk yields only
`src/a.js`: `node_modules/pkg/index.js` is *not* included.  The directory
`node_modules` itself is tested first, the override pattern does not match
the directory, so the walk prunes it and never reaches `node_modules/pkg`. -/
theorem c3_counterexample :
    collectFiles (walkIgn DEFAULT_IGNORES ["!node_modules/pkg/**"]) none 100
        c3Tree = ["src/a.js"] ∧
    "node_modules/pkg/index.js" ∉
      collectFiles (walkIgn DEFAULT_IGNORES ["!node_modules/pkg/**"]) none 100
        c3Tree := by
  refine ⟨by decide, ?_⟩
  rw [show collectFiles (walkIgn DEFAULT_IGNORES ["!node_modules/pkg/**"])
        none 100 c3Tree = ["src/a.js"] by decide]
  decide

/-- C3 (amended): the override matcher is evaluated last and can cancel a
default ignore only for paths its patterns actually match; a directory
ignored by the defaults and not itself unignored is pruned with everything
beneath it.  Hence `!node_modules/pkg/**` alone excludes all of
`node_modules/` (first conjunct), while an override that also unignores the
ancestor directory — `!node_modules/`, `node_modules/*`,
`!node_modules/pkg/` — force-includes every file under `node_modules/pkg/`
and still excludes the sibling `node_modules/other/` (second conjunct). -/
theorem c3_override_requires_unignored_ancestors :
    collectFiles (walkIgn DEFAULT_IGNORES ["!node_modules/pkg/**"]) none 100
        c3Tree = ["src/a.js"] ∧
    collectFiles
        (walkIgn DEFAULT_IGNORES
          ["!node_modules/", "node_modules/*", "!node_modules/pkg/"]) none 100
        c3Tree = ["node_modules/pkg/index.js", "src/a.js"] := by
  exact ⟨by decide, by decide⟩

/-! ## Path normalizer (`file-index.ts` lines 42-49)

`normalizePosixPath`: backslashes to slashes, `trim()`, one leading `"./"`
stripped, trailing slashes stripped while more than one character remains,
empty result mapped to `"."`.  The same function (modulo the final
empty-to-`"."` step, see the module-detector variant later) appears in
`entry-detector.ts` and `cli/src/index.ts`.  Implemented over `String.data`
so concrete instances reduce in the kernel. -/

/-- Whitespace removed by JS `String.prototype.trim` (ASCII subset; the
exotic Unicode space characters never occur in repository paths here). -/
def isJsSpace (c : Char) : Bool := c == ' ' || (9 ≤ c.toNat && c.toNat ≤ 13)

/-- `value.trim()`. -/
def trimChars (l : List Char) : List Char :=
  ((l.dropWhile isJsSpace).reverse.dropWhile isJsSpace).reverse

/-- `if (normalized.startsWith("./")) normalized = normalized.slice(2)`. -/
def stripDotSlash : List Char → List Char
  | c1 :: c2 :: rest => if c1 == '.' && c2 == '/' then rest else c1 :: c2 :: rest
  | l => l

def startsWithDotSlash : List Char → Bool
  | c1 :: c2 :: _ => c1 == '.' && c2 == '/'
  | _ => false

/-- `while (normalized.endsWith("/") && normalized.length > 1) slice(0, -1)`. -/
def dropTrailingSlashes (l : List Char) : List Char :=
  if (l.reverse.dropWhile (· == '/')).isEmpty then
    (if l.isEmpty then [] else ['/'])
  else (l.reverse.dropWhile (· == '/')).reverse

def normalizeChars (l : List Char) : List Char :=
  dropTrailingSlashes
    (stripDotSlash
      (trimChars (l.map fun c => if c == '\\' then '/' else c)))

/-- `normalizePosixPath` of `file-index.ts` (and `entry-detector.ts`,
`cli/src/index.ts`): canonical RepoPath, empty input mapped to `"."`. -/
def normalizePosixPath (s : String) : String :=
  let cs := normalizeChars s.data
  if cs.isEmpty then "." else ⟨cs⟩

theorem mem_trimChars {c : Char} {l : List Char} (h : c ∈ trimChars l) :
    c ∈ l := by
  unfold trimChars at h
  rw [List.mem_reverse] at h
  have h₂ := (List.dropWhile_sublist isJsSpace).subset h
  rw [List.mem_reverse] at h₂
  exact (List.dropWhile_sublist isJsSpace).subset h₂

theorem mem_stripDotSlash {c : Char} {l : List Char}
    (h : c ∈ stripDotSlash l) : c ∈ l := by
  match l, h with
  | [], h => exact h
  | [a], h => exact h
  | c1 :: c2 :: rest, h =>
    simp only [stripDotSlash] at h
    by_cases hc : (c1 == '.' && c2 == '/') = true
    · rw [if_pos hc] at h; exact List.mem_cons_of_mem _ (List.mem_cons_of_mem _ h)
    · rwa [if_neg hc] at h

theorem mem_dropTrailingSlashes {c : Char} {l : List Char}
    (h : c ∈ dropTrailingSlashes l) : c ∈ l ∨ c = '/' := by
  unfold dropTrailingSlashes at h
  by_cases hr : (l.reverse.dropWhile (· == '/')).isEmpty = true
  · rw [if_pos hr] at h
    by_cases hl : l.isEmpty = true
    · rw [if_pos hl] at h; exact absurd h (List.not_mem_nil c)
    · rw [if_neg hl] at h
      right
      simpa using h
  · rw [if_neg hr] at h
    left
    rw [List.mem_reverse] at h
    have := (List.dropWhile_sublist (· == '/')).subset h
    rwa [List.mem_reverse] at this

theorem normalize_no_backslash {s : String} {c : Char}
    (h : c ∈ (normalizePosixPath s).data) : ¬ c = '\\' := by
  unfold normalizePosixPath at h
  by_cases he : (normalizeChars s.data).isEmpty = true
  · rw [if_pos he] at h
    simp only [String.data] at h
    intro hc
    subst hc
    simp at h
  · rw [if_neg he] at h
    simp only [String.data] at h
    unfold normalizeChars at h
    rcases mem_dropTrailingSlashes h with h | h
    · have h₂ := mem_trimChars (mem_stripDotSlash h)
      rcases List.mem_map.mp h₂ with ⟨a, _, ha⟩
      intro hc
      by_cases hb : (a == '\\') = true
      · rw [if_pos hb] at ha; rw [← ha] at hc; exact absurd hc (by decide)
      · rw [if_neg hb] at ha
        rw [← ha] at hc
        subst hc
        simp at hb
    · intro hc; rw [hc] at h; exact absurd h (by decide)

theorem map_backslash_id {l : List Char} (h : ∀ c ∈ l, ¬ c = '\\') :
    (l.map fun c => if c == '\\' then '/' else c) = l := by
  induction l with
  | nil => rfl
  | cons a t ih =>
    have ha : (a == '\\') = false := by
      cases hb : (a == '\\') with
      | false => rfl
      | true => exact absurd (by simpa using hb) (h a (List.mem_cons_self a t))
    simp only [List.map_cons, ha, Bool.false_eq_true, if_false]
    rw [ih fun c hc => h c (List.mem_cons_of_mem a hc)]

theorem dropWhile_head_false {α : Type} {p : α → Bool} :
    ∀ {l : List α} {a : α} {t : List α}, l.dropWhile p = a :: t → p a = false := by
  intro l
  induction l with
  | nil => intro a t h; simp at h
  | cons x xs ih =>
    intro a t h
    by_cases hx : p x = true
    · rw [List.dropWhile_cons_of_pos hx] at h; exact ih h
    · rw [List.dropWhile_cons_of_neg hx] at h
      cases h
      simpa using hx

theorem dropTrailingSlashes_idem (l : List Char) :
    dropTrailingSlashes (dropTrailingSlashes l) = dropTrailingSlashes l := by
  by_cases hr : (l.reverse.dropWhile (· == '/')).isEmpty = true
  · by_cases hl : l.isEmpty = true
    · rw [show dropTrailingSlashes l = [] by
        unfold dropTrailingSlashes; rw [if_pos hr, if_pos hl]]
      rfl
    · rw [show dropTrailingSlashes l = ['/'] by
        unfold dropTrailingSlashes; rw [if_pos hr, if_neg hl]]
      rfl
  · have hres : dropTrailingSlashes l = (l.reverse.dropWhile (· == '/')).reverse := by
      unfold dropTrailingSlashes; rw [if_neg hr]
    rw [hres]
    unfold dropTrailingSlashes
    rw [List.reverse_reverse]
    match hd : l.reverse.dropWhile (· == '/'), hr with
    | a :: t, _ =>
      have ha := dropWhile_head_false hd
      rw [List.dropWhile_cons_of_neg (by simp [ha])]
      rw [if_neg (by simp)]

theorem stripDotSlash_of_not {l : List Char}
    (h : startsWithDotSlash l = false) : stripDotSlash l = l := by
  match l, h with
  | [], _ => rfl
  | [a], _ => rfl
  | c1 :: c2 :: rest, h =>
    simp only [startsWithDotSlash] at h
    simp only [stripDotSlash, h, Bool.false_eq_true, if_false]

theorem normalize_shape (s : String) :
    (normalizePosixPath s).data = ['.'] ∨
    ∃ x, (normalizePosixPath s).data = dropTrailingSlashes x := by
  unfold normalizePosixPath
  by_cases he : (normalizeChars s.data).isEmpty = true
  · rw [if_pos he]; left; rfl
  · rw [if_neg he]
    right
    exact ⟨stripDotSlash (trimChars (s.data.map fun c =>
      if c == '\\' then '/' else c)), rfl⟩

theorem normalize_ne_nil (s : String) : (normalizePosixPath s).data ≠ [] := by
  unfold normalizePosixPath
  by_cases he : (normalizeChars s.data).isEmpty = true
  · rw [if_pos he]; simp
  · rw [if_neg he]
    simpa [List.isEmpty_iff] using he

/-- C10, counterexample: the normalizer strips only one leading `"./"`, so
its output is not canonical and it is not idempotent:
`normalize("././a") = "./a"` but `normalize("./a") = "a"`. -/
theorem c10_counterexample :
    normalizePosixPath "././a" = "./a" ∧
    normalizePosixPath (normalizePosixPath "././a") = "a" ∧
    normalizePosixPath (normalizePosixPath "././a") ≠
      normalizePosixPath "././a" := by
  refine ⟨by decide, by decide, ?_⟩
  rw [show normalizePosixPath "././a" = "./a" by decide]
  decide

/-- C10 (amended): the Path Normalizer is a pure total function — backslashes
converted to slashes, the input trimmed, *one* leading `"./"` stripped,
trailing slashes stripped (keeping at least one character), empty input
mapped to `"."`.  Because only one leading `"./"` is stripped, the output is
not always canonical and `normalize ∘ normalize` differs from `normalize`
on inputs like `"././a"`; idempotence does hold on every input whose
normalized form carries no further leading `"./"` and no surrounding
whitespace. -/
theorem c10_normalize_idempotent_on_clean (s : String)
    (h1 : trimChars (normalizePosixPath s).data = (normalizePosixPath s).data)
    (h2 : startsWithDotSlash (normalizePosixPath s).data = false) :
    normalizePosixPath "" = "." ∧
    normalizePosixPath (normalizePosixPath s) = normalizePosixPath s := by
  refine ⟨by decide, ?_⟩
  have hmap : ((normalizePosixPath s).data.map fun c =>
      if c == '\\' then '/' else c) = (normalizePosixPath s).data :=
    map_backslash_id fun c hc => normalize_no_backslash hc
  have hdrop : dropTrailingSlashes (normalizePosixPath s).data =
      (normalizePosixPath s).data := by
    rcases normalize_shape s with hsh | ⟨x, hsh⟩
    · rw [hsh]; decide
    · rw [hsh]; exact dropTrailingSlashes_idem x
  have hchars : normalizeChars (normalizePosixPath s).data =
      (normalizePosixPath s).data := by
    unfold normalizeChars
    rw [hmap, h1, stripDotSlash_of_not h2, hdrop]
  show (if (normalizeChars (normalizePosixPath s).data).isEmpty then "."
    else ⟨normalizeChars (normalizePosixPath s).data⟩) = normalizePosixPath s
  rw [hchars]
  rw [if_neg (by simpa [List.isEmpty_iff] using normalize_ne_nil s)]

theorem c10_witness :
    trimChars (normalizePosixPath " src\\x//").data =
      (normalizePosixPath " src\\x//").data ∧
    startsWithDotSlash (normalizePosixPath " src\\x//").data = false ∧
    (normalizePosixPath "" = "." ∧
     normalizePosixPath (normalizePosixPath " src\\x//") =
       normalizePosixPath " src\\x//") :=
  ⟨by decide, by decide,
    c10_normalize_idempotent_on_clean " src\\x//" (by decide) (by decide)⟩

/-! ## Content file index (`file-index.ts`)

`FileIndexEntry`/`FileIndex`/`FileChangeSet` and `entryChanged` /
`diffFileIndex` are translated directly.  The `HashAlgorithm` union type
(`"sha256" | "sha1"`, `meta.ts`) is modelled as `String`.  JS `Map`
construction from an entry list keeps the last binding per key; `mapGet`
reproduces that.  JS truthiness of `string | null` (`prev.hash &&
next.hash` in `entryChanged`) is false for `null` *and* for the empty
string. -/

structure FileIndexEntry where
  path : String
  size : Nat
  mtimeMs : Int
  hash : Option String
deriving DecidableEq

structure FileIndex where
  repoRoot : String
  hashAlgorithm : String
  files : List FileIndexEntry
deriving DecidableEq

structure FileChangeSet where
  hashAlgorithm : String
  added : List String
  modified : List String
  deleted : List String
deriving DecidableEq

/-- JS truthiness of a `string | null` value. -/
def truthy : Option String → Bool
  | none => false
  | some s => !(s == "")

/-- `entryChanged` (file-index.ts lines 150-159). -/
def entryChanged (prev next : FileIndexEntry) (useHash : Bool) : Bool :=
  if useHash && truthy prev.hash && truthy next.hash then
    !(prev.hash == next.hash)
  else
    !(prev.size == next.size) || !(prev.mtimeMs == next.mtimeMs)

/-- `new Map(files.map(e => [e.path, e])).get(p)`: last binding wins. -/
def mapGet (files : List FileIndexEntry) (p : String) : Option FileIndexEntry :=
  files.reverse.find? (fun e => e.path == p)

/-- `diffFileIndex` (file-index.ts lines 161-200).  The source's single pass
over `current.files` pushing into `added` / `modified` is expressed as a
filter and a filterMap over the same list in the same order; both lists are
sorted afterwards exactly as in the source. -/
def diffFileIndex (previous current : FileIndex) : FileChangeSet :=
  let useHash := previous.hashAlgorithm == current.hashAlgorithm
  let added := (current.files.filter
    (fun e => (mapGet previous.files e.path).isNone)).map FileIndexEntry.path
  let modified := current.files.filterMap (fun e =>
    match mapGet previous.files e.path with
    | none => none
    | some pe => if entryChanged pe e useHash then some e.path else none)
  let deleted := (previous.files.filter
    (fun e => (mapGet current.files e.path).isNone)).map FileIndexEntry.path
  { hashAlgorithm := current.hashAlgorithm
    added := sortStrings added
    modified := sortStrings modified
    deleted := sortStrings deleted }

theorem mapGet_eq_none_iff (files : List FileIndexEntry) (p : String) :
    mapGet files p = none ↔ p ∉ files.map FileIndexEntry.path := by
  unfold mapGet
  rw [List.find?_eq_none]
  constructor
  · intro h hp
    rcases List.mem_map.mp hp with ⟨e, he, hep⟩
    exact h e (List.mem_reverse.mpr he) (by simp [hep])
  · intro h e he hep
    exact h (List.mem_map.mpr ⟨e, List.mem_reverse.mp he, by simpa using hep⟩)

theorem find?_key_of_mem {α : Type} (key : α → String) :
    ∀ (l : List α), (l.map key).Nodup → ∀ e ∈ l,
      l.find? (fun x => key x == key e) = some e := by
  intro l
  induction l with
  | nil => intro _ e he; exact absurd he (List.not_mem_nil e)
  | cons a t ih =>
    intro hnd e he
    rw [List.map_cons, List.nodup_cons] at hnd
    rcases List.mem_cons.mp he with rfl | het
    · rw [List.find?_cons_of_pos _ (by simp)]
    · have hne : (key a == key e) = false := by
        cases hk : (key a == key e) with
        | false => rfl
        | true =>
          have hkey : key a = key e := by simpa using hk
          exact absurd (List.mem_map.mpr ⟨e, het, hkey.symm⟩) hnd.1
      rw [List.find?_cons_of_neg _ (by simp [hne])]
      exact ih hnd.2 e het

theorem mapGet_of_mem {files : List FileIndexEntry}
    (hnd : (files.map FileIndexEntry.path).Nodup) {e : FileIndexEntry}
    (he : e ∈ files) : mapGet files e.path = some e := by
  unfold mapGet
  exact find?_key_of_mem FileIndexEntry.path files.reverse
    (by rw [List.map_reverse]; exact List.nodup_reverse.mpr hnd) e
    (List.mem_reverse.mpr he)

theorem sortStrings_strict {l : List String} (hnd : l.Nodup) :
    (sortStrings l).Pairwise (fun a b => strLt a b = true) := by
  have hs := sortByKey_sorted (id : String → String) l
  have hn : (sortStrings l).Nodup := ((sortByKey_perm id l).nodup_iff).mpr hnd
  have := List.Pairwise.and hs hn
  exact this.imp fun h => strLt_of_le_of_ne h.1 h.2

theorem sortStrings_mem (l : List String) (p : String) :
    p ∈ sortStrings l ↔ p ∈ l := sortByKey_mem id l p

theorem filterMap_key_sublist {α : Type} (key : α → String)
    (f : α → Option String) (hf : ∀ e, f e = none ∨ f e = some (key e)) :
    ∀ l : List α, (l.filterMap f).Sublist (l.map key) := by
  intro l
  induction l with
  | nil => simp
  | cons a t ih =>
    rw [List.filterMap_cons, List.map_cons]
    rcases hf a with ha | ha
    · rw [ha]; exact ih.cons (key a)
    · rw [ha]; exact ih.cons₂ (key a)

theorem entryChanged_iff (prev next : FileIndexEntry) (useHash : Bool) :
    (entryChanged prev next useHash = true) ↔
      (if useHash && truthy prev.hash && truthy next.hash then
        prev.hash ≠ next.hash
       else prev.size ≠ next.size ∨ prev.mtimeMs ≠ next.mtimeMs) := by
  by_cases hb : (useHash && truthy prev.hash && truthy next.hash) = true
  · simp [entryChanged, hb]
  · simp only [Bool.not_eq_true] at hb
    simp [entryChanged, hb]

/-- The two indexes for the C2 counterexample: the shared path `a` carries a
non-null hash on both sides (`""` versus `"x"`), same algorithm, equal size
and mtime. -/
def c2Prev : FileIndex :=
  ⟨"/r", "sha256", [⟨"a", 1, 1, some ""⟩]⟩

def c2Cur : FileIndex :=
  ⟨"/r", "sha256", [⟨"a", 1, 1, some "x"⟩]⟩

/-- C2, counterexample: both indexes share the hash algorithm and both
entries for path `a` have a non-null hash, the hashes differ — yet
`diffFileIndex` reports no modification: `entryChanged` tests JS truthiness
(`prev.hash && next.hash`), and the empty-string hash is falsy, forcing the
size/mtime fallback. -/
theorem c2_counterexample :
    (diffFileIndex c2Prev c2Cur).modified = [] ∧
    (diffFileIndex c2Prev c2Cur).added = [] ∧
    (diffFileIndex c2Prev c2Cur).deleted = [] ∧
    c2Prev.hashAlgorithm = c2Cur.hashAlgorithm ∧
    (∃ pe ∈ c2Prev.files, ∃ ce ∈ c2Cur.files,
      pe.path = ce.path ∧ pe.hash.isSome ∧ ce.hash.isSome ∧
      pe.hash ≠ ce.hash) := by
  refine ⟨by decide, by decide, by decide, by decide, ?_⟩
  exact ⟨⟨"a", 1, 1, some ""⟩, by decide, ⟨"a", 1, 1, some "x"⟩, by decide,
    by decide, by decide, by decide, by decide⟩

/-- C2 (amended): `diffFileIndex(previous, current)` classifies paths as
follows — for indexes whose entry paths are duplicate-free, a path in
current but not previous is in `added`; a path in previous but not current
is in `deleted`; a path in both is in `modified` iff, when the two indexes
share the hash algorithm and both entries have a *truthy* (non-null and
non-empty) hash, the hashes differ, and otherwise iff size or mtime
differ — a hash-algorithm mismatch therefore forces the size/mtime
fallback for every shared path; and all three output lists are sorted
strictly ascending. -/
theorem c2_diff_classification (previous current : FileIndex)
    (hp : (previous.files.map FileIndexEntry.path).Nodup)
    (hc : (current.files.map FileIndexEntry.path).Nodup) :
    (∀ p, p ∈ (diffFileIndex previous current).added ↔
       (p ∈ current.files.map FileIndexEntry.path ∧
        p ∉ previous.files.map FileIndexEntry.path)) ∧
    (∀ p, p ∈ (diffFileIndex previous current).deleted ↔
       (p ∈ previous.files.map FileIndexEntry.path ∧
        p ∉ current.files.map FileIndexEntry.path)) ∧
    (∀ pe ce, pe ∈ previous.files → ce ∈ current.files → pe.path = ce.path →
       (ce.path ∈ (diffFileIndex previous current).modified ↔
         (if (previous.hashAlgorithm == current.hashAlgorithm) &&
             truthy pe.hash && truthy ce.hash then
           pe.hash ≠ ce.hash
          else pe.size ≠ ce.size ∨ pe.mtimeMs ≠ ce.mtimeMs))) ∧
    ((diffFileIndex previous current).added.Pairwise
       (fun a b => strLt a b = true) ∧
     (diffFileIndex previous current).modified.Pairwise
       (fun a b => strLt a b = true) ∧
     (diffFileIndex previous current).deleted.Pairwise
       (fun a b => strLt a b = true)) := by
  refine ⟨?_, ?_, ?_, ?_, ?_, ?_⟩
  · intro p
    show p ∈ sortStrings _ ↔ _
    rw [sortStrings_mem, List.mem_map]
    constructor
    · rintro ⟨e, he, rfl⟩
      rw [List.mem_filter] at he
      refine ⟨List.mem_map.mpr ⟨e, he.1, rfl⟩, ?_⟩
      rw [← mapGet_eq_none_iff]
      exact Option.isNone_iff_eq_none.mp he.2
    · rintro ⟨hcur, hprev⟩
      rcases List.mem_map.mp hcur with ⟨e, he, rfl⟩
      refine ⟨e, List.mem_filter.mpr ⟨he, ?_⟩, rfl⟩
      exact Option.isNone_iff_eq_none.mpr ((mapGet_eq_none_iff _ _).mpr hprev)
  · intro p
    show p ∈ sortStrings _ ↔ _
    rw [sortStrings_mem, List.mem_map]
    constructor
    · rintro ⟨e, he, rfl⟩
      rw [List.mem_filter] at he
      refine ⟨List.mem_map.mpr ⟨e, he.1, rfl⟩, ?_⟩
      rw [← mapGet_eq_none_iff]
      exact Option.isNone_iff_eq_none.mp he.2
    · rintro ⟨hprev, hcur⟩
      rcases List.mem_map.mp hprev with ⟨e, he, rfl⟩
      refine ⟨e, List.mem_filter.mpr ⟨he, ?_⟩, rfl⟩
      exact Option.isNone_iff_eq_none.mpr ((mapGet_eq_none_iff _ _).mpr hcur)
  · intro pe ce hpe hce hpath
    rw [← entryChanged_iff]
    show ce.path ∈ sortStrings _ ↔ _
    rw [sortStrings_mem, List.mem_filterMap]
    constructor
    · rintro ⟨e, he, hfe⟩
      rcases hx : mapGet previous.files e.path with _ | pe'
      · rw [hx] at hfe; simp at hfe
      · rw [hx] at hfe
        dsimp only at hfe
        by_cases hch : entryChanged pe' e
            (previous.hashAlgorithm == current.hashAlgorithm) = true
        · rw [if_pos hch] at hfe
          have hep : e.path = ce.path := by simpa using hfe
          have he' : e = ce := by
            have h1 := mapGet_of_mem hc he
            have h2 := mapGet_of_mem hc hce
            rw [hep] at h1
            rw [h1] at h2
            exact Option.some.inj h2
          subst he'
          have h3 := mapGet_of_mem hp hpe
          rw [hpath, hx] at h3
          rw [← Option.some.inj h3]
          exact hch
        · rw [if_neg hch] at hfe; simp at hfe
    · intro hch
      refine ⟨ce, hce, ?_⟩
      have h3 := mapGet_of_mem hp hpe
      rw [hpath] at h3
      rw [h3]
      dsimp only
      rw [if_pos hch]
  · apply sortStrings_strict
    exact (((List.filter_sublist _).map _).nodup hc)
  · apply sortStrings_strict
    apply List.Sublist.nodup _ hc
    apply filterMap_key_sublist
    intro e
    rcases hx : mapGet previous.files e.path with _ | pe'
    · exact Or.inl rfl
    · by_cases hch : entryChanged pe' e
          (previous.hashAlgorithm == current.hashAlgorithm) = true
      · exact Or.inr (by dsimp only; rw [if_pos hch])
      · exact Or.inl (by dsimp only; rw [if_neg hch])
  · apply sortStrings_strict
    exact (((List.filter_sublist _).map _).nodup hp)

def c2wPrev : FileIndex :=
  ⟨"/r", "sha256", [⟨"a", 1, 1, some "h1"⟩, ⟨"b", 2, 2, some "h2"⟩]⟩

def c2wCur : FileIndex :=
  ⟨"/r", "sha256", [⟨"b", 2, 3, some "h3"⟩, ⟨"c", 1, 1, none⟩]⟩

theorem c2_witness :
    (c2wPrev.files.map FileIndexEntry.path).Nodup ∧
    (c2wCur.files.map FileIndexEntry.path).Nodup ∧
    ("c" ∈ (diffFileIndex c2wPrev c2wCur).added ↔
      ("c" ∈ c2wCur.files.map FileIndexEntry.path ∧
       "c" ∉ c2wPrev.files.map FileIndexEntry.path)) :=
  ⟨by decide, by decide,
    (c2_diff_classification c2wPrev c2wCur (by decide) (by decide)).1 "c"⟩

/-! ## Building the index (`file-index.ts` lines 51-148)

Filesystem behaviour is a function parameter: `statResult` models
`fs.stat(absPath)` and `hashResult` the streaming `hashFile` (`.ok h` when
the content was read and hashed, `.error e` when the read stream errored —
in which case `hashFile` resolves `null` after calling `reportError`).
Paths are keyed repo-relative (`resolveAbsPath` is injective on the
normalized relative paths used here).  The bounded worker pool advances a
shared cursor over the immutable file list and its interleavings only
permute the order in which entries are appended; the final
`entries.sort(compareNames)` makes the index independent of that order, so
the model processes the list sequentially.  `reportError` (identical in
`file-index.ts` lines 51-60 and `entry-detector.ts` lines 369-378) is
modelled by the list of reports it forwards to the `onError` sink. -/

inductive FsErr where
  | enoent
  | eacces
  | eio
deriving DecidableEq

structure StatInfo where
  size : Nat
  mtimeMs : Int
deriving DecidableEq

structure FsModel where
  statResult : String → Except FsErr StatInfo
  hashResult : String → Except FsErr String

/-- `reportError`: forwards `(err, path)` to the caller-supplied sink,
except that `ENOENT` is silently swallowed (`if (error?.code === "ENOENT")
return;`). -/
def reportError (e : FsErr) (targetPath : String) : List (FsErr × String) :=
  if e = .enoent then [] else [(e, targetPath)]

/-- `buildEntry` (lines 85-105): `fs.stat`, then `hashFile`; a stat failure
reports and yields no entry, a hash failure reports and yields an entry
with a `null` hash. -/
def buildEntry (fs : FsModel) (filePath : String) :
    Option FileIndexEntry × List (FsErr × String) :=
  match fs.statResult filePath with
  | .error e => (none, reportError e filePath)
  | .ok st =>
    match fs.hashResult filePath with
    | .error e =>
      (some ⟨filePath, st.size, st.mtimeMs, none⟩, reportError e filePath)
    | .ok h => (some ⟨filePath, st.size, st.mtimeMs, some h⟩, [])

/-- The worker loop's filter: `if (!filePath || filePath === ".") continue`. -/
def validPaths (files : List String) : List String :=
  (files.map normalizePosixPath).filter (fun p => !(p == "") && !(p == "."))

/-- `buildFileIndex` (lines 107-148): normalize, filter, build entries,
collect the non-`null` ones, sort by path; paired with the error reports
emitted along the way. -/
def buildFileIndex (fs : FsModel) (repoRoot hashAlgorithm : String)
    (files : List String) : FileIndex × List (FsErr × String) :=
  let results := (validPaths files).map (buildEntry fs)
  let entries := results.filterMap Prod.fst
  let reports := (results.map Prod.snd).flatten
  (⟨repoRoot, hashAlgorithm, sortByKey FileIndexEntry.path entries⟩, reports)

theorem buildEntry_fst_path {fs : FsModel} {q : String}
    {entry : FileIndexEntry} (h : (buildEntry fs q).1 = some entry) :
    entry.path = q := by
  unfold buildEntry at h
  rcases hs : fs.statResult q with e | st
  · rw [hs] at h; simp at h
  · rw [hs] at h
    rcases hh : fs.hashResult q with e | hv
    · rw [hh] at h
      dsimp only at h
      cases Option.some.inj h
      rfl
    · rw [hh] at h
      dsimp only at h
      cases Option.some.inj h
      rfl

theorem mem_buildFileIndex_iff (fs : FsModel) (repoRoot alg : String)
    (files : List String) (entry : FileIndexEntry) :
    entry ∈ (buildFileIndex fs repoRoot alg files).1.files ↔
      ∃ q ∈ validPaths files, (buildEntry fs q).1 = some entry := by
  show entry ∈ sortByKey FileIndexEntry.path _ ↔ _
  rw [sortByKey_mem, List.mem_filterMap]
  constructor
  · rintro ⟨r, hr, hfst⟩
    rcases List.mem_map.mp hr with ⟨q, hq, rfl⟩
    exact ⟨q, hq, hfst⟩
  · rintro ⟨q, hq, hfst⟩
    exact ⟨buildEntry fs q, List.mem_map.mpr ⟨q, hq, rfl⟩, hfst⟩

theorem mem_buildFileIndex_reports_iff (fs : FsModel) (repoRoot alg : String)
    (files : List String) (rep : FsErr × String) :
    rep ∈ (buildFileIndex fs repoRoot alg files).2 ↔
      ∃ q ∈ validPaths files, rep ∈ (buildEntry fs q).2 := by
  show rep ∈ (((validPaths files).map (buildEntry fs)).map Prod.snd).flatten ↔ _
  rw [List.mem_flatten]
  constructor
  · rintro ⟨l, hl, hrep⟩
    rcases List.mem_map.mp hl with ⟨r, hr, rfl⟩
    rcases List.mem_map.mp hr with ⟨q, hq, rfl⟩
    exact ⟨q, hq, hrep⟩
  · rintro ⟨q, hq, hrep⟩
    exact ⟨(buildEntry fs q).2,
      List.mem_map.mpr ⟨buildEntry fs q, List.mem_map.mpr ⟨q, hq, rfl⟩, rfl⟩,
      hrep⟩

/-- A filesystem in which every file has vanished: all stats and reads fail
with `ENOENT`. -/
def c7Fs : FsModel := ⟨fun _ => .error .enoent, fun _ => .error .enoent⟩

/-- C7, counterexample: a file that disappears before its `fs.stat` call is
*not* recorded in the index — `buildEntry` returns `null` from its catch
block and the worker drops it (`if (entry) entries.push(entry)`), so the
resulting index is empty rather than containing a best-effort entry with a
`null` hash. -/
theorem c7_counterexample :
    c7Fs.statResult "a.ts" = .error .enoent ∧
    validPaths ["a.ts"] = ["a.ts"] ∧
    (buildFileIndex c7Fs "/repo" "sha256" ["a.ts"]).1.files = [] :=
  ⟨rfl, by decide, by decide⟩

/-- C7 (amended): during `buildFileIndex`, a file that becomes unreadable
between `stat` and hashing (the content stream errors) is still recorded
with its path, the stat's size/mtime and a `null` hash, and the build
continues; but a file that cannot even be stat'ed (e.g. it vanished before
the `stat` call) yields no entry at all — it is dropped from the index
(reported through the error sink unless the error is `ENOENT`), never
recorded best-effort.  No per-file failure aborts the build. -/
theorem c7_null_hash_recording (fs : FsModel) (repoRoot alg : String)
    (files : List String) (p : String) (hp : p ∈ validPaths files) :
    (∀ st, fs.statResult p = .ok st → ∀ e, fs.hashResult p = .error e →
      (⟨p, st.size, st.mtimeMs, none⟩ : FileIndexEntry) ∈
        (buildFileIndex fs repoRoot alg files).1.files) ∧
    (∀ e, fs.statResult p = .error e →
      ∀ entry ∈ (buildFileIndex fs repoRoot alg files).1.files,
        entry.path ≠ p) := by
  constructor
  · intro st hst e hh
    refine (mem_buildFileIndex_iff fs repoRoot alg files _).mpr ⟨p, hp, ?_⟩
    unfold buildEntry
    rw [hst]
    dsimp only
    rw [hh]
  · intro e hst entry hmem hpe
    rcases (mem_buildFileIndex_iff fs repoRoot alg files entry).mp hmem
      with ⟨q, _, hfst⟩
    have hq : entry.path = q := buildEntry_fst_path hfst
    rw [hpe] at hq
    rw [← hq] at hfst
    unfold buildEntry at hfst
    rw [hst] at hfst
    simp at hfst

def c7wFs : FsModel := ⟨fun _ => .ok ⟨10, 5⟩, fun _ => .error .eacces⟩

theorem c7_witness :
    "a.ts" ∈ validPaths ["a.ts"] ∧
    (⟨"a.ts", 10, 5, none⟩ : FileIndexEntry) ∈
      (buildFileIndex c7wFs "/r" "sha256" ["a.ts"]).1.files :=
  ⟨by decide,
    (c7_null_hash_recording c7wFs "/r" "sha256" ["a.ts"] "a.ts"
      (by decide)).1 ⟨10, 5⟩ rfl .eacces rfl⟩

/-- C8, counterexample: a vanished file (`ENOENT`) is a per-entry
filesystem error, yet nothing reaches the caller-supplied sink —
`reportError` returns without calling `onError` when the code is `ENOENT`,
so the build of a vanished file emits no report at all. -/
theorem c8_counterexample :
    c7Fs.statResult "a.ts" = .error .enoent ∧
    validPaths ["a.ts"] = ["a.ts"] ∧
    reportError .enoent "a.ts" = [] ∧
    (buildFileIndex c7Fs "/repo" "sha256" ["a.ts"]).2 = [] :=
  ⟨rfl, by decide, by decide, by decide⟩

/-- C8 (amended): every per-entry filesystem error with a code other than
`ENOENT` (permission denied, I/O error, unreadable target) — at the stat
stage or at the hashing stage — is reported through the caller-supplied
error sink, the entry is skipped or recorded hash-less, and the build
continues (every other stat-able file still gets its entry); errors with
code `ENOENT` (a vanished file) are filtered out by `reportError` and
never reach the sink.  No such error aborts the overall index build. -/
theorem c8_error_reporting (fs : FsModel) (repoRoot alg : String)
    (files : List String) (p : String) (e : FsErr)
    (hp : p ∈ validPaths files) (he : e ≠ .enoent) :
    (fs.statResult p = .error e →
      (e, p) ∈ (buildFileIndex fs repoRoot alg files).2) ∧
    (∀ st, fs.statResult p = .ok st → fs.hashResult p = .error e →
      (e, p) ∈ (buildFileIndex fs repoRoot alg files).2) ∧
    (∀ q st, q ∈ validPaths files → fs.statResult q = .ok st →
      ∃ entry ∈ (buildFileIndex fs repoRoot alg files).1.files,
        entry.path = q) := by
  refine ⟨?_, ?_, ?_⟩
  · intro hst
    refine (mem_buildFileIndex_reports_iff fs repoRoot alg files _).mpr
      ⟨p, hp, ?_⟩
    unfold buildEntry
    rw [hst]
    dsimp only
    unfold reportError
    rw [if_neg he]
    exact List.mem_singleton.mpr rfl
  · intro st hst hh
    refine (mem_buildFileIndex_reports_iff fs repoRoot alg files _).mpr
      ⟨p, hp, ?_⟩
    unfold buildEntry
    rw [hst]
    dsimp only
    rw [hh]
    dsimp only
    unfold reportError
    rw [if_neg he]
    exact List.mem_singleton.mpr rfl
  · intro q st hq hst
    rcases hh : fs.hashResult q with e' | hv
    · refine ⟨⟨q, st.size, st.mtimeMs, none⟩, ?_, rfl⟩
      refine (mem_buildFileIndex_iff fs repoRoot alg files _).mpr ⟨q, hq, ?_⟩
      unfold buildEntry
      rw [hst]
      dsimp only
      rw [hh]
    · refine ⟨⟨q, st.size, st.mtimeMs, some hv⟩, ?_, rfl⟩
      refine (mem_buildFileIndex_iff fs repoRoot alg files _).mpr ⟨q, hq, ?_⟩
      unfold buildEntry
      rw [hst]
      dsimp only
      rw [hh]

def c8wFs : FsModel :=
  ⟨fun q => if q == "bad.ts" then .error .eacces else .ok ⟨1, 2⟩,
   fun _ => .ok "h"⟩

theorem c8_witness :
    "bad.ts" ∈ validPaths ["bad.ts", "ok.ts"] ∧
    FsErr.eacces ≠ FsErr.enoent ∧
    (FsErr.eacces, "bad.ts") ∈
      (buildFileIndex c8wFs "/r" "sha256" ["bad.ts", "ok.ts"]).2 ∧
    (∃ entry ∈ (buildFileIndex c8wFs "/r" "sha256" ["bad.ts", "ok.ts"]).1.files,
      entry.path = "ok.ts") := by
  have h := c8_error_reporting c8wFs "/r" "sha256" ["bad.ts", "ok.ts"]
    "bad.ts" .eacces (by decide) (by decide)
  exact ⟨by decide, by decide, h.1 rfl, h.2.2 "ok.ts" ⟨1, 2⟩ (by decide) rfl⟩

/-! ## Module boundary resolver (`module-detector.ts`, src/unnamed/part_002)

`detectModules` is translated with its filesystem reads supplied as
parameters: `WorkspaceConfig` is the (already normalized) result of
`getWorkspaceConfig`, and `nameOf` models `readModuleName` (the `name`
field of a module's `package.json`, `none` when absent or unparseable).
JS `Set`s are insertion-ordered duplicate-free lists (`insertNew`,
`dedupFirst`), JS `Map`s insertion-ordered association lists
(`updateAssoc` / `lookupAssoc`). -/

namespace ModuleDetector

/-- `normalizePosixPath` of module-detector.ts (lines 57-66): identical to
the file-index variant except that it lacks the final empty-to-`"."`
mapping — the empty string maps to itself. -/
def normalizePosixPath (s : String) : String := ⟨normalizeChars s.data⟩

/-- `normalizeDirPath` (lines 68-72). -/
def normalizeDirPath (s : String) : String :=
  let n := normalizePosixPath s
  if n.length = 0 || n == "." then "." else n

end ModuleDetector

/-- `path.posix.dirname` for the slash-separated relative paths this
repository produces (no leading `/`, no empty segments).  Node's `dirname`
on absolute paths differs — and on those the source's `resolveModuleRoot`
ancestor loop does not even terminate — so theorems about resolution carry
a cleanliness hypothesis where it matters. -/
def dirname (p : String) : String :=
  let segs := splitOnSlash p
  if segs.length ≤ 1 then "." else joinPath segs.dropLast

/-- `path.posix.basename`. -/
def basename (p : String) : String :=
  match (splitOnSlash p).getLast? with
  | some b => b
  | none => p

/-- `path.posix.extname`: the suffix from the last `.` of the basename,
empty for dot-less names and for a leading dot. -/
def extname (p : String) : String :=
  let b := (basename p).data
  let rev := b.reverse
  if rev.contains '.' then
    let rest := rev.takeWhile (fun c => !(c == '.'))
    if rest.length + 1 = b.length then ""
    else ⟨'.' :: rest.reverse⟩
  else ""

/-- The ancestor walk of `resolveModuleRoot` (module-detector.ts lines
243-269; the identical function also lives in entry-detector.ts lines
104-129 and cli/src/index.ts lines 168-193): from `dirname(filePath)`
upward, return the first directory contained in the candidate-root set,
falling back to `"."` at the repository root.  The dir→root memo cache of
the source only speeds this walk up.  The current directory is carried as
its reversed segment list so the ascent is structural. -/
def resolveUp (roots : List String) : List String → String
  | [] => "."
  | seg :: parent =>
    if roots.contains (joinPath (seg :: parent).reverse) then
      joinPath (seg :: parent).reverse
    else resolveUp roots parent

def resolveModuleRoot (filePath : String) (roots : List String) : String :=
  resolveUp roots ((splitOnSlash filePath).dropLast).reverse

/-- `new Set(...)`-style insertion: append if absent. -/
def insertNew (l : List String) (x : String) : List String :=
  if l.contains x then l else l ++ [x]

/-- `Array.from(new Set(list))`: first occurrence wins, insertion order. -/
def dedupFirst (l : List String) : List String := l.foldl insertNew []

/-- Insertion-ordered `Map.set` with an update function. -/
def updateAssoc {β : Type} : List (String × β) → String → (Option β → β) →
    List (String × β)
  | [], k, f => [(k, f none)]
  | (k', v) :: rest, k, f =>
    if k' == k then (k', f (some v)) :: rest
    else (k', v) :: updateAssoc rest k f

/-- `Map.get`. -/
def lookupAssoc {β : Type} : List (String × β) → String → Option β
  | [], _ => none
  | (k', v) :: rest, k => if k' == k then some v else lookupAssoc rest k

/-- `DEFAULT_WORKSPACE_PATTERNS` (line 35). -/
def DEFAULT_WORKSPACE_PATTERNS : List String :=
  ["packages/*", "apps/*", "services/*", "libs/*"]

def NODE_EXTENSIONS : List String :=
  [".js", ".jsx", ".ts", ".tsx", ".mjs", ".cjs", ".mts", ".cts"]

def PYTHON_EXTENSIONS : List String := [".py", ".pyw"]

def GO_EXTENSIONS : List String := [".go"]

def PYPROJECT_FILES : List String :=
  ["pyproject.toml", "pyproject.yaml", "pyproject.yml"]

/-- The language-marker basenames (`package.json`, `go.mod`, the
`PYPROJECT_FILES`). -/
def markerNames : List String := ["package.json", "go.mod"] ++ PYPROJECT_FILES

inductive KnownLanguage where
  | node
  | go
  | python
deriving DecidableEq

def markerOfBasename (b : String) : Option KnownLanguage :=
  if b == "package.json" then some .node
  else if b == "go.mod" then some .go
  else if PYPROJECT_FILES.contains b then some .python
  else none

/-- `Set.add` on a marker set. -/
def markerAdd (o : Option (List KnownLanguage)) (lang : KnownLanguage) :
    List KnownLanguage :=
  match o with
  | none => [lang]
  | some ls => if ls.contains lang then ls else ls ++ [lang]

structure ExtCounts where
  node : Nat
  python : Nat
  go : Nat
deriving DecidableEq

structure ModuleAggregate where
  path : String
  fileCount : Nat
  extCounts : ExtCounts
deriving DecidableEq

structure ModuleInfo where
  name : String
  path : String
  language : String
  fileCount : Nat
deriving DecidableEq

structure WorkspaceConfig where
  globs : List String
  roots : List String

/-- `countLanguageFromExt` (lines 271-276). -/
def countLanguageFromExt (ext : String) : Option KnownLanguage :=
  if NODE_EXTENSIONS.contains ext then some .node
  else if PYTHON_EXTENSIONS.contains ext then some .python
  else if GO_EXTENSIONS.contains ext then some .go
  else none

def langName : KnownLanguage → String
  | .node => "node"
  | .python => "python"
  | .go => "go"

/-- `resolveLanguage` (lines 278-299).  The 60%-majority test
`topCount / total >= 0.6` is expressed exactly over the naturals as
`10 * topCount ≥ 6 * total`; the descending stable sort's tie order is
`node`, `python`, `go`. -/
def resolveLanguage (counts : ExtCounts) (markers : Option (List KnownLanguage)) :
    String :=
  match markers with
  | some (l :: ls) => if ls.isEmpty then langName l else "mixed"
  | _ =>
    let total := counts.node + counts.python + counts.go
    if total == 0 then "unknown"
    else
      let top :=
        if counts.node ≥ counts.python && counts.node ≥ counts.go then
          (KnownLanguage.node, counts.node)
        else if counts.python ≥ counts.go then (KnownLanguage.python, counts.python)
        else (KnownLanguage.go, counts.go)
      if 10 * top.2 ≥ 6 * total then langName top.1 else "mixed"

/-- A compiled token of `globToRegExp` (lines 195-217): a literal character,
`*` → `[^/]*`, a run of two or more `*` → `.*`, `?` → `[^/]`. -/
inductive GlobTok where
  | lit (c : Char)
  | star
  | dstar
  | qmark
deriving DecidableEq

def dropStarRun : List Char → List Char
  | '*' :: rest => dropStarRun rest
  | l => l

/-- `globToRegExp` compilation to tokens (fuel-structural; any fuel above
the pattern length is enough). -/
def compileGlob : Nat → List Char → List GlobTok
  | 0, _ => []
  | _ + 1, [] => []
  | fuel + 1, '*' :: rest =>
    match rest with
    | '*' :: _ => .dstar :: compileGlob fuel (dropStarRun rest)
    | _ => .star :: compileGlob fuel rest
  | fuel + 1, '?' :: rest => .qmark :: compileGlob fuel rest
  | fuel + 1, c :: rest => .lit c :: compileGlob fuel rest

/-- Anchored regex matching of the compiled tokens (`^...$`), by
backtracking; fuel above `tokens + input` length suffices. -/
def toksMatch : Nat → List GlobTok → List Char → Bool
  | 0, _, _ => false
  | _ + 1, [], [] => true
  | _ + 1, [], _ :: _ => false
  | fuel + 1, .star :: ts, cs =>
    toksMatch fuel ts cs ||
      (match cs with
       | c :: cs' => !(c == '/') && toksMatch fuel (.star :: ts) cs'
       | [] => false)
  | fuel + 1, .dstar :: ts, cs =>
    toksMatch fuel ts cs ||
      (match cs with
       | _ :: cs' => toksMatch fuel (.dstar :: ts) cs'
       | [] => false)
  | fuel + 1, .qmark :: ts, cs =>
    (match cs with
     | c :: cs' => !(c == '/') && toksMatch fuel ts cs'
     | [] => false)
  | fuel + 1, .lit p :: ts, cs =>
    match cs with
    | c :: cs' => p == c && toksMatch fuel ts cs'
    | [] => false

/-- `regex.test(value)` for one workspace glob. -/
def globTest (pattern value : String) : Bool :=
  toksMatch (pattern.length + value.length + 1)
    (compileGlob (pattern.length + 1) pattern.data) value.data

/-- `compileGlobMatchers` + `matchesPatterns` (lines 219-241): negation,
last matching pattern wins, empty list matches nothing. -/
def matchesPatterns (value : String) (patterns : List String) : Bool :=
  patterns.foldl
    (fun included pat =>
      let negated := match pat.data with | '!' :: _ => true | _ => false
      let body : String := match pat.data with | '!' :: rest => ⟨rest⟩ | _ => pat
      if globTest body value then !negated else included)
    false

/-- `normalizeGlobPattern` (lines 168-176). -/
def normalizeGlobPattern (value : String) : String :=
  let p : String := ⟨trimChars value.data⟩
  if p.length = 0 then ""
  else
    let negated := match p.data with | '!' :: _ => true | _ => false
    let body : String := match p.data with | '!' :: rest => ⟨rest⟩ | _ => p
    let body := ModuleDetector.normalizePosixPath body
    let body := if body == "." then "" else body
    if negated then "!" ++ body else body

/-- `normalizeGlobList` (lines 178-183). -/
def normalizeGlobList (patterns : List String) : List String :=
  dedupFirst ((patterns.map normalizeGlobPattern).filter (fun p => 0 < p.length))

/-- `normalizeRootList` (lines 185-190). -/
def normalizeRootList (roots : List String) : List String :=
  dedupFirst ((roots.map ModuleDetector.normalizeDirPath).filter
    (fun r => 0 < r.length))

/-- The first pass of `detectModules` (lines 408-447): collect every
ancestor directory of a file's parent (`dirSet`), the nonempty first
segment of every nested file (`topLevelDirs`), and language-marker sets per
directory (`markerMap`). -/
structure ScanState where
  dirSet : List String
  topLevelDirs : List String
  markerMap : List (String × List KnownLanguage)

/-- A directory together with all its ancestors up to `"."`, carried as a
reversed segment list. -/
def ancestorsRev : List String → List String
  | [] => ["."]
  | seg :: parent => joinPath (seg :: parent).reverse :: ancestorsRev parent

def ancestors (dir : String) : List String :=
  if dir == "." then ["."] else ancestorsRev (splitOnSlash dir).reverse

def scanFile (st : ScanState) (filePath : String) : ScanState :=
  if filePath == "" || filePath == "." then st
  else
    let dirPath := ModuleDetector.normalizeDirPath (dirname filePath)
    let dirSet := (ancestors dirPath).foldl insertNew st.dirSet
    let segs := splitOnSlash filePath
    let topLevelDirs :=
      if segs.length > 1 then
        match segs.head? with
        | some t => if t == "" then st.topLevelDirs else insertNew st.topLevelDirs t
        | none => st.topLevelDirs
      else st.topLevelDirs
    let markerMap :=
      match markerOfBasename (basename filePath) with
      | some lang => updateAssoc st.markerMap dirPath (fun o => markerAdd o lang)
      | none => st.markerMap
    ⟨dirSet, topLevelDirs, markerMap⟩

def fileListOf (files : List String) : List String :=
  files.map ModuleDetector.normalizePosixPath

def validFiles (files : List String) : List String :=
  (fileListOf files).filter (fun p => !(p == "") && !(p == "."))

def scanState (files : List String) : ScanState :=
  (fileListOf files).foldl scanFile ⟨[], [], []⟩

/-- The candidate-root derivation of `detectModules` (lines 449-485):
marker directories, explicit workspace roots, glob-matched directories,
the top-level fallback when no marker outside the root and no workspace
hint exists, and always `"."`. -/
def workspaceGlobsOf (cfg : WorkspaceConfig) (workspacePatterns : List String)
    (fallbackWorkspacePatterns : List String) : List String :=
  if 0 < workspacePatterns.length then normalizeGlobList workspacePatterns
  else if 0 < cfg.globs.length then cfg.globs
  else normalizeGlobList fallbackWorkspacePatterns

def detectCandidateRoots (files : List String) (cfg : WorkspaceConfig)
    (workspacePatterns fallbackWorkspacePatterns : List String) : List String :=
  let st := scanState files
  let workspaceGlobs := workspaceGlobsOf cfg workspacePatterns
    fallbackWorkspacePatterns
  let explicitRoots := dedupFirst cfg.roots
  let roots0 := dedupFirst (st.markerMap.map Prod.fst)
  let roots1 := explicitRoots.foldl insertNew roots0
  let roots2 :=
    if 0 < workspaceGlobs.length then
      st.dirSet.foldl
        (fun acc d => if matchesPatterns d workspaceGlobs then insertNew acc d
          else acc) roots1
    else roots1
  let hasNonRootMarkers := st.markerMap.any (fun kv => !(kv.1 == "."))
  let hasWorkspaceHints :=
    0 < workspaceGlobs.length || 0 < explicitRoots.length
  let roots3 :=
    if !hasNonRootMarkers && !hasWorkspaceHints && 0 < st.topLevelDirs.length
    then st.topLevelDirs.foldl insertNew roots2
    else roots2
  insertNew roots3 "."

/-- One step of the aggregation pass (lines 490-507). -/
def bumpAggregate (root ext : String) (o : Option ModuleAggregate) :
    ModuleAggregate :=
  let agg := o.getD ⟨root, 0, ⟨0, 0, 0⟩⟩
  let ec := agg.extCounts
  let ec :=
    match countLanguageFromExt ext with
    | some .node => { ec with node := ec.node + 1 }
    | some .python => { ec with python := ec.python + 1 }
    | some .go => { ec with go := ec.go + 1 }
    | none => ec
  ⟨agg.path, agg.fileCount + 1, ec⟩

def buildModuleMap (candidateRoots : List String) (fileList : List String) :
    List (String × ModuleAggregate) :=
  fileList.foldl
    (fun m p =>
      if p == "" || p == "." then m
      else updateAssoc m (resolveModuleRoot p candidateRoots)
        (bumpAggregate (resolveModuleRoot p candidateRoots) (extname p)))
    []

/-- `detectModules` (lines 399-534), with `repoName` standing for
`path.basename(path.resolve(options.repoRoot))` and `nameOf` for
`readModuleName` (the module manifest's `name`; JS truthiness makes an
empty-string name fall back to the directory basename). -/
def moduleEntryFor (st : ScanState) (repoName : String)
    (nameOf : String → Option String)
    (moduleMap : List (String × ModuleAggregate)) (mp : String) :
    Option ModuleInfo :=
  match lookupAssoc moduleMap mp with
  | none => none
  | some agg =>
    let markers := lookupAssoc st.markerMap mp
    let language := resolveLanguage agg.extCounts markers
    let fallbackName := if mp == "." then repoName else basename mp
    let name :=
      match (if (markers.getD []).contains KnownLanguage.node
        then nameOf mp else none) with
      | some n => if n == "" then fallbackName else n
      | none => fallbackName
    some ⟨name, mp, language, agg.fileCount⟩

def detectModules (repoName : String) (files : List String)
    (cfg : WorkspaceConfig) (workspacePatterns fallbackWorkspacePatterns : List String)
    (nameOf : String → Option String) : List ModuleInfo :=
  let st := scanState files
  let candidateRoots := detectCandidateRoots files cfg workspacePatterns
    fallbackWorkspacePatterns
  let moduleMap := buildModuleMap candidateRoots (fileListOf files)
  let sortedPaths := sortStrings (moduleMap.map Prod.fst)
  sortedPaths.filterMap (moduleEntryFor st repoName nameOf moduleMap)

theorem mem_insertNew {l : List String} {x y : String} :
    y ∈ insertNew l x ↔ (y ∈ l ∨ y = x) := by
  unfold insertNew
  by_cases h : l.contains x = true
  · rw [if_pos h]
    have hx : x ∈ l := by simpa using h
    constructor
    · exact Or.inl
    · rintro (hy | rfl)
      · exact hy
      · exact hx
  · rw [if_neg h]
    simp

theorem mem_foldl_insertNew (xs : List String) :
    ∀ (init : List String) (y : String),
      y ∈ xs.foldl insertNew init ↔ (y ∈ init ∨ y ∈ xs) := by
  induction xs with
  | nil => intro init y; simp
  | cons a xs ih =>
    intro init y
    rw [List.foldl_cons, ih, mem_insertNew, List.mem_cons]
    tauto

theorem updateAssoc_fst {β : Type} :
    ∀ (m : List (String × β)) (k : String) (f : Option β → β),
      (updateAssoc m k f).map Prod.fst =
        if k ∈ m.map Prod.fst then m.map Prod.fst
        else m.map Prod.fst ++ [k] := by
  intro m
  induction m with
  | nil => intro k f; simp [updateAssoc]
  | cons kv rest ih =>
    intro k f
    rcases kv with ⟨k', v⟩
    by_cases hk : (k' == k) = true
    · have : k' = k := by simpa using hk
      subst this
      simp [updateAssoc, hk]
    · have hne : k' ≠ k := by simpa using hk
      simp only [updateAssoc, hk, Bool.false_eq_true, if_false, List.map_cons,
        ih]
      by_cases hmem : k ∈ rest.map Prod.fst
      · rw [if_pos hmem, if_pos (by simp [hmem])]
      · rw [if_neg hmem, if_neg (by
          intro hcon
          rcases List.mem_cons.mp hcon with h | h
          · exact hne h.symm
          · exact hmem h)]
        simp

theorem updateAssoc_keys_nodup {β : Type} {m : List (String × β)} {k : String}
    {f : Option β → β} (h : (m.map Prod.fst).Nodup) :
    ((updateAssoc m k f).map Prod.fst).Nodup := by
  rw [updateAssoc_fst]
  by_cases hmem : k ∈ m.map Prod.fst
  · rwa [if_pos hmem]
  · rw [if_neg hmem]
    exact List.nodup_append.mpr ⟨h, List.nodup_singleton k,
      fun a ha hak => hmem ((List.mem_singleton.mp hak) ▸ ha)⟩

theorem mem_updateAssoc_keys {β : Type} {m : List (String × β)} {k x : String}
    {f : Option β → β} :
    x ∈ (updateAssoc m k f).map Prod.fst ↔ (x ∈ m.map Prod.fst ∨ x = k) := by
  rw [updateAssoc_fst]
  by_cases hmem : k ∈ m.map Prod.fst
  · rw [if_pos hmem]
    constructor
    · exact Or.inl
    · rintro (hx | rfl)
      · exact hx
      · exact hmem
  · rw [if_neg hmem]; simp

theorem lookupAssoc_of_mem_keys {β : Type} :
    ∀ {m : List (String × β)} {k : String},
      k ∈ m.map Prod.fst → ∃ v, lookupAssoc m k = some v := by
  intro m
  induction m with
  | nil => intro k h; simp at h
  | cons kv rest ih =>
    intro k h
    rcases kv with ⟨k', v⟩
    by_cases hk : (k' == k) = true
    · exact ⟨v, by simp [lookupAssoc, hk]⟩
    · rw [List.map_cons] at h
      rcases List.mem_cons.mp h with heq | hmem
      · rw [heq] at hk; simp at hk
      · rcases ih hmem with ⟨w, hw⟩
        exact ⟨w, by simp [lookupAssoc, hk, hw]⟩

/-- Total file count bookkeeping of the aggregation map. -/
def aggTotal (m : List (String × ModuleAggregate)) : Nat :=
  (m.map (fun kv => kv.2.fileCount)).sum

theorem aggTotal_updateAssoc :
    ∀ (m : List (String × ModuleAggregate)) (k root ext : String),
      aggTotal (updateAssoc m k (bumpAggregate root ext)) = aggTotal m + 1 := by
  intro m
  induction m with
  | nil => intro k root ext; simp [aggTotal, updateAssoc, bumpAggregate]
  | cons kv rest ih =>
    intro k root ext
    rcases kv with ⟨k', v⟩
    by_cases hk : (k' == k) = true
    · simp only [updateAssoc, hk, if_true, aggTotal, List.map_cons,
        List.sum_cons]
      have : (bumpAggregate root ext (some v)).fileCount = v.fileCount + 1 := by
        simp [bumpAggregate]
      rw [this]
      omega
    · simp only [updateAssoc, hk, Bool.false_eq_true, if_false, aggTotal,
        List.map_cons, List.sum_cons]
      have := ih k root ext
      unfold aggTotal at this
      omega

theorem sum_lookup_fileCount :
    ∀ (m : List (String × ModuleAggregate)), (m.map Prod.fst).Nodup →
      ((m.map Prod.fst).map (fun k =>
        match lookupAssoc m k with
        | some agg => agg.fileCount
        | none => 0)).sum = aggTotal m := by
  intro m
  induction m with
  | nil => intro _; simp [aggTotal]
  | cons kv rest ih =>
    intro hnd
    rcases kv with ⟨k, v⟩
    simp only [List.map_cons, List.nodup_cons] at hnd ⊢
    rw [List.sum_cons]
    have hhead : (match lookupAssoc ((k, v) :: rest) k with
        | some agg => agg.fileCount
        | none => 0) = v.fileCount := by
      simp [lookupAssoc]
    have htail : (rest.map Prod.fst).map (fun x =>
        match lookupAssoc ((k, v) :: rest) x with
        | some agg => agg.fileCount
        | none => 0) = (rest.map Prod.fst).map (fun x =>
        match lookupAssoc rest x with
        | some agg => agg.fileCount
        | none => 0) := by
      apply List.map_congr_left
      intro x hx
      have hne : (k == x) = false := by
        cases hkx : (k == x) with
        | false => rfl
        | true =>
          have : k = x := by simpa using hkx
          exact absurd (this ▸ hx) hnd.1
      simp [lookupAssoc, hne]
    rw [hhead, htail, ih hnd.2]
    simp [aggTotal]

theorem moduleEntryFor_of_lookup (st : ScanState) (repoName : String)
    (nameOf : String → Option String)
    {moduleMap : List (String × ModuleAggregate)} {mp : String}
    {agg : ModuleAggregate} (h : lookupAssoc moduleMap mp = some agg) :
    ∃ info, moduleEntryFor st repoName nameOf moduleMap mp = some info ∧
      info.path = mp ∧ info.fileCount = agg.fileCount := by
  unfold moduleEntryFor
  rw [h]
  exact ⟨_, rfl, rfl, rfl⟩

theorem filterMap_moduleEntry_map (st : ScanState) (repoName : String)
    (nameOf : String → Option String)
    (moduleMap : List (String × ModuleAggregate)) :
    ∀ (ps : List String), (∀ mp ∈ ps, mp ∈ moduleMap.map Prod.fst) →
      ((ps.filterMap (moduleEntryFor st repoName nameOf moduleMap)).map
          ModuleInfo.path = ps ∧
       (ps.filterMap (moduleEntryFor st repoName nameOf moduleMap)).map
          ModuleInfo.fileCount = ps.map (fun mp =>
            match lookupAssoc moduleMap mp with
            | some agg => agg.fileCount
            | none => 0)) := by
  intro ps
  induction ps with
  | nil => intro _; exact ⟨rfl, rfl⟩
  | cons mp rest ih =>
    intro hall
    rcases lookupAssoc_of_mem_keys (hall mp (List.mem_cons_self mp rest))
      with ⟨agg, hagg⟩
    rcases moduleEntryFor_of_lookup st repoName nameOf hagg
      with ⟨info, hinfo, hpath, hcount⟩
    have ihr := ih fun x hx => hall x (List.mem_cons_of_mem mp hx)
    rw [List.filterMap_cons, hinfo]
    constructor
    · rw [List.map_cons, hpath, ihr.1]
    · rw [List.map_cons, List.map_cons, hcount, hagg, ihr.2]

theorem mem_buildModuleMap_keys (roots : List String) (fl : List String)
    (r : String) :
    r ∈ (buildModuleMap roots fl).map Prod.fst ↔
      ∃ p ∈ fl, ¬(p = "" ∨ p = ".") ∧ resolveModuleRoot p roots = r := by
  have main : ∀ (l : List String) (m : List (String × ModuleAggregate)),
      (r ∈ (l.foldl (fun m p =>
        if p == "" || p == "." then m
        else updateAssoc m (resolveModuleRoot p roots)
          (bumpAggregate (resolveModuleRoot p roots) (extname p))) m).map
          Prod.fst ↔
        (r ∈ m.map Prod.fst ∨
         ∃ p ∈ l, ¬(p = "" ∨ p = ".") ∧ resolveModuleRoot p roots = r)) := by
    intro l
    induction l with
    | nil => intro m; simp
    | cons p rest ih =>
      intro m
      rw [List.foldl_cons]
      by_cases hp : (p == "" || p == ".") = true
      · rw [if_pos hp, ih]
        have hval : p = "" ∨ p = "." := by
          rw [Bool.or_eq_true] at hp
          rcases hp with h | h
          · exact Or.inl (by simpa using h)
          · exact Or.inr (by simpa using h)
        constructor
        · rintro (h | ⟨q, hq, hqv, hqr⟩)
          · exact Or.inl h
          · exact Or.inr ⟨q, List.mem_cons_of_mem p hq, hqv, hqr⟩
        · rintro (h | ⟨q, hq, hqv, hqr⟩)
          · exact Or.inl h
          · rcases List.mem_cons.mp hq with rfl | hq'
            · exact absurd hval hqv
            · exact Or.inr ⟨q, hq', hqv, hqr⟩
      · rw [if_neg hp, ih, mem_updateAssoc_keys]
        have hval : ¬(p = "" ∨ p = ".") := by
          intro hcon
          apply hp
          rcases hcon with h | h <;> simp [h]
        constructor
        · rintro ((h | rfl) | ⟨q, hq, hqv, hqr⟩)
          · exact Or.inl h
          · exact Or.inr ⟨p, List.mem_cons_self p rest, hval, rfl⟩
          · exact Or.inr ⟨q, List.mem_cons_of_mem p hq, hqv, hqr⟩
        · rintro (h | ⟨q, hq, hqv, hqr⟩)
          · exact Or.inl (Or.inl h)
          · rcases List.mem_cons.mp hq with rfl | hq'
            · exact Or.inl (Or.inr hqr.symm)
            · exact Or.inr ⟨q, hq', hqv, hqr⟩
  unfold buildModuleMap
  rw [main fl []]
  simp

theorem buildModuleMap_keys_nodup (roots : List String) (fl : List String) :
    ((buildModuleMap roots fl).map Prod.fst).Nodup := by
  have main : ∀ (l : List String) (m : List (String × ModuleAggregate)),
      (m.map Prod.fst).Nodup →
      ((l.foldl (fun m p =>
        if p == "" || p == "." then m
        else updateAssoc m (resolveModuleRoot p roots)
          (bumpAggregate (resolveModuleRoot p roots) (extname p))) m).map
          Prod.fst).Nodup := by
    intro l
    induction l with
    | nil => intro m h; exact h
    | cons p rest ih =>
      intro m h
      rw [List.foldl_cons]
      by_cases hp : (p == "" || p == ".") = true
      · rw [if_pos hp]; exact ih m h
      · rw [if_neg hp]
        exact ih _ (updateAssoc_keys_nodup h)
  exact main fl [] (by simp)

theorem aggTotal_buildModuleMap (roots : List String) (files : List String) :
    aggTotal (buildModuleMap roots (fileListOf files)) =
      (validFiles files).length := by
  have main : ∀ (l : List String) (m : List (String × ModuleAggregate)),
      aggTotal (l.foldl (fun m p =>
        if p == "" || p == "." then m
        else updateAssoc m (resolveModuleRoot p roots)
          (bumpAggregate (resolveModuleRoot p roots) (extname p))) m) =
      aggTotal m + (l.filter (fun p => !(p == "") && !(p == "."))).length := by
    intro l
    induction l with
    | nil => intro m; simp
    | cons p rest ih =>
      intro m
      rw [List.foldl_cons, List.filter_cons]
      by_cases hp : (p == "" || p == ".") = true
      · have hpred : (!(p == "") && !(p == ".")) = false := by
          rw [Bool.or_eq_true] at hp
          rcases hp with h | h <;> simp [h]
        rw [if_pos hp, hpred, ih]
        simp
      · have hpred : (!(p == "") && !(p == ".")) = true := by
          simp only [Bool.or_eq_true] at hp
          push_neg at hp
          simp [hp.1, hp.2]
        rw [if_neg hp, hpred, ih, aggTotal_updateAssoc]
        simp
        omega
  unfold buildModuleMap
  rw [main (fileListOf files) []]
  unfold validFiles
  simp [aggTotal]

theorem mem_root_detectCandidateRoots (files : List String)
    (cfg : WorkspaceConfig) (wp fb : List String) :
    "." ∈ detectCandidateRoots files cfg wp fb := by
  unfold detectCandidateRoots
  exact mem_insertNew.mpr (Or.inr rfl)

/-- C5, counterexample: `detectModules` counts files with multiplicity, so
on an input list containing the same file twice the `fileCount`s sum to the
list length, not to the number of distinct input files. -/
theorem c5_counterexample :
    detectModules "repo" ["a.ts", "a.ts"] ⟨[], []⟩ []
        DEFAULT_WORKSPACE_PATTERNS (fun _ => none) =
      [⟨"repo", ".", "node", 2⟩] ∧
    (validFiles ["a.ts", "a.ts"]).dedup.length = 1 ∧
    ¬ (((detectModules "repo" ["a.ts", "a.ts"] ⟨[], []⟩ []
        DEFAULT_WORKSPACE_PATTERNS (fun _ => none)).map
          ModuleInfo.fileCount).sum =
        (validFiles ["a.ts", "a.ts"]).dedup.length) :=
  ⟨by decide, by decide, by decide⟩

/-- C5 (amended): `detectModules` assigns each retained file (nonempty,
non-`"."` after normalization) to exactly one module — the nearest
enclosing directory in the candidate-root set, the ancestry walk
terminating at the root `"."`, which is always a candidate.  The returned
module paths are duplicate-free, every retained file's resolved root is
among them, and the `fileCount`s of the returned modules sum to the number
of retained entries of the normalized input list, counted with
multiplicity (equal to the number of distinct files whenever the list is
duplicate-free after normalization, as a walker-produced list is). -/
theorem c5_module_assignment (repoName : String) (files : List String)
    (cfg : WorkspaceConfig) (wp fb : List String)
    (nameOf : String → Option String) :
    ("." ∈ detectCandidateRoots files cfg wp fb) ∧
    ((detectModules repoName files cfg wp fb nameOf).map
      ModuleInfo.path).Nodup ∧
    (∀ p ∈ validFiles files,
      resolveModuleRoot p (detectCandidateRoots files cfg wp fb) ∈
        (detectModules repoName files cfg wp fb nameOf).map
          ModuleInfo.path) ∧
    (((detectModules repoName files cfg wp fb nameOf).map
        ModuleInfo.fileCount).sum = (validFiles files).length) := by
  have hdet : detectModules repoName files cfg wp fb nameOf =
      (sortStrings ((buildModuleMap (detectCandidateRoots files cfg wp fb)
        (fileListOf files)).map Prod.fst)).filterMap
        (moduleEntryFor (scanState files) repoName nameOf
          (buildModuleMap (detectCandidateRoots files cfg wp fb)
            (fileListOf files))) := rfl
  have hnodupKeys := buildModuleMap_keys_nodup
    (detectCandidateRoots files cfg wp fb) (fileListOf files)
  have hall : ∀ mp ∈ sortStrings ((buildModuleMap
      (detectCandidateRoots files cfg wp fb) (fileListOf files)).map
        Prod.fst),
      mp ∈ (buildModuleMap (detectCandidateRoots files cfg wp fb)
        (fileListOf files)).map Prod.fst :=
    fun mp h => (sortStrings_mem _ _).mp h
  have hfm := filterMap_moduleEntry_map (scanState files) repoName nameOf
    (buildModuleMap (detectCandidateRoots files cfg wp fb)
      (fileListOf files)) _ hall
  refine ⟨mem_root_detectCandidateRoots files cfg wp fb, ?_, ?_, ?_⟩
  · rw [hdet, hfm.1]
    exact ((sortByKey_perm id _).nodup_iff).mpr hnodupKeys
  · intro p hp
    unfold validFiles at hp
    rw [List.mem_filter] at hp
    have hvalid : ¬(p = "" ∨ p = ".") := by
      intro hcon
      rcases hcon with h | h <;> simp [h] at hp
    rw [hdet, hfm.1]
    apply (sortStrings_mem _ _).mpr
    exact (mem_buildModuleMap_keys _ _ _).mpr ⟨p, hp.1, hvalid, rfl⟩
  · rw [hdet, hfm.2]
    have hperm := (sortByKey_perm (id : String → String)
      ((buildModuleMap (detectCandidateRoots files cfg wp fb)
        (fileListOf files)).map Prod.fst)).map
      (fun mp => match lookupAssoc (buildModuleMap
        (detectCandidateRoots files cfg wp fb) (fileListOf files)) mp with
        | some agg => agg.fileCount
        | none => 0)
    unfold sortStrings
    rw [hperm.sum_eq]
    rw [sum_lookup_fileCount _ hnodupKeys]
    exact aggTotal_buildModuleMap _ files

theorem mem_dedupFirst {l : List String} {x : String} :
    x ∈ dedupFirst l ↔ x ∈ l := by
  unfold dedupFirst
  rw [mem_foldl_insertNew]
  simp

theorem splitChars_ne_nil (sep : Char) : ∀ l : List Char, splitChars sep l ≠ []
  | [] => by simp [splitChars]
  | c :: rest => by
    simp only [splitChars]
    by_cases hc : (c == sep) = true
    · simp [hc]
    · simp only [hc, Bool.false_eq_true, if_false]
      match hr : splitChars sep rest with
      | [] => simp
      | seg :: segs => simp

theorem splitChars_no_sep (sep : Char) :
    ∀ (l : List Char) (piece : List Char), piece ∈ splitChars sep l →
      sep ∉ piece
  | [], piece, h => by
    simp [splitChars] at h
    simp [h]
  | c :: rest, piece, h => by
    simp only [splitChars] at h
    by_cases hc : (c == sep) = true
    · rw [if_pos hc] at h
      rcases List.mem_cons.mp h with rfl | h'
      · simp
      · exact splitChars_no_sep sep rest piece h'
    · rw [if_neg hc] at h
      match hr : splitChars sep rest, h with
      | [], h =>
        dsimp only at h
        rcases List.mem_cons.mp h with rfl | h'
        · intro hmem
          rcases List.mem_cons.mp hmem with rfl | hmem'
          · simp at hc
          · exact absurd hmem' (List.not_mem_nil sep)
        · exact absurd h' (List.not_mem_nil piece)
      | seg :: segs, h =>
        dsimp only at h
        rcases List.mem_cons.mp h with rfl | h'
        · intro hmem
          rcases List.mem_cons.mp hmem with rfl | hmem'
          · simp at hc
          · exact splitChars_no_sep sep rest seg
              (hr ▸ List.mem_cons_self seg segs) hmem'
        · exact splitChars_no_sep sep rest piece
            (hr ▸ List.mem_cons_of_mem seg h')

theorem splitOnSlash_no_slash {p d : String} (h : d ∈ splitOnSlash p) :
    ('/' ∈ d.data) → False := by
  unfold splitOnSlash at h
  rcases List.mem_map.mp h with ⟨piece, hpiece, rfl⟩
  intro hmem
  exact splitChars_no_sep '/' p.data piece hpiece hmem

theorem slash_mem_joinPath (a b : String) (rest : List String) :
    '/' ∈ (joinPath (a :: b :: rest)).data := by
  show '/' ∈ (a ++ "/" ++ joinPath (b :: rest)).data
  rw [String.data_append, String.data_append]
  simp

theorem joinPath_singleton (s : String) : joinPath [s] = s := rfl

/-- Ascending through clean directories: when no candidate root contains a
slash, the ancestor walk skips every multi-segment directory and decides at
the top-level segment. -/
theorem resolveUp_clean (roots : List String)
    (hroots : ∀ r ∈ roots, ('/' ∈ r.data) → False) :
    ∀ (revInit : List String) (s1 : String),
      resolveUp roots (revInit ++ [s1]) =
        if roots.contains s1 then s1 else "." := by
  intro revInit
  induction revInit with
  | nil => intro s1; rfl
  | cons r revInit ih =>
    intro s1
    show (if roots.contains (joinPath ((r :: (revInit ++ [s1])).reverse))
        then joinPath ((r :: (revInit ++ [s1])).reverse)
        else resolveUp roots (revInit ++ [s1])) = _
    have hj : ∃ a b rest, (r :: (revInit ++ [s1])).reverse =
        a :: b :: rest := by
      rcases hrev : (revInit ++ [s1]).reverse with _ | ⟨a, tail⟩
      · exfalso
        have h1 : revInit ++ [s1] ≠ [] := by simp
        rw [List.reverse_eq_nil_iff] at hrev
        exact h1 hrev
      · rcases tail with _ | ⟨b2, t2⟩
        · exact ⟨a, r, [], by rw [List.reverse_cons, hrev]; rfl⟩
        · exact ⟨a, b2, t2 ++ [r], by rw [List.reverse_cons, hrev]; rfl⟩
    rcases hj with ⟨a, b, rest, hab⟩
    have hcon : roots.contains (joinPath ((r :: (revInit ++ [s1])).reverse))
        = false := by
      cases hc : roots.contains (joinPath ((r :: (revInit ++ [s1])).reverse))
        with
      | false => rfl
      | true =>
        exfalso
        have hmem : joinPath ((r :: (revInit ++ [s1])).reverse) ∈ roots := by
          simpa using hc
        apply hroots _ hmem
        rw [hab]
        exact slash_mem_joinPath a b rest
    rw [if_neg (by rw [hcon]; decide)]
    exact ih s1

theorem scanFile_top (st : ScanState) (p d : String) :
    d ∈ (scanFile st p).topLevelDirs ↔
      (d ∈ st.topLevelDirs ∨
        (¬(p = "" ∨ p = ".") ∧ 1 < (splitOnSlash p).length ∧
         (splitOnSlash p).head? = some d ∧ d ≠ "")) := by
  by_cases hval : (p == "" || p == ".") = true
  · have hp : p = "" ∨ p = "." := by
      rw [Bool.or_eq_true] at hval
      rcases hval with h | h
      · exact Or.inl (by simpa using h)
      · exact Or.inr (by simpa using h)
    rw [show scanFile st p = st by unfold scanFile; rw [if_pos hval]]
    simp [hp]
  · have hvalid : ¬(p = "" ∨ p = ".") := fun hcon =>
      hval (by rcases hcon with h | h <;> simp [h])
    have hsf : (scanFile st p).topLevelDirs =
        (if 1 < (splitOnSlash p).length then
          match (splitOnSlash p).head? with
          | some t =>
            if t == "" then st.topLevelDirs else insertNew st.topLevelDirs t
          | none => st.topLevelDirs
        else st.topLevelDirs) := by
      unfold scanFile
      rw [if_neg hval]
    rw [hsf]
    by_cases hlen : 1 < (splitOnSlash p).length
    · rw [if_pos hlen]
      rcases hhd : (splitOnSlash p).head? with _ | t
      · dsimp only
        constructor
        · exact Or.inl
        · rintro (h | ⟨_, _, hd, _⟩)
          · exact h
          · cases hd
      · dsimp only
        by_cases ht : (t == "") = true
        · rw [if_pos ht]
          have ht' : t = "" := by simpa using ht
          constructor
          · exact Or.inl
          · rintro (h | ⟨_, _, hd, hdne⟩)
            · exact h
            · exact absurd (Option.some.inj hd)
                (by rw [ht']; exact fun hh => hdne hh.symm)
        · rw [if_neg ht]
          rw [mem_insertNew]
          have ht' : t ≠ "" := by simpa using ht
          constructor
          · rintro (h | rfl)
            · exact Or.inl h
            · exact Or.inr ⟨hvalid, hlen, rfl, ht'⟩
          · rintro (h | ⟨_, _, hd, _⟩)
            · exact Or.inl h
            · exact Or.inr (Option.some.inj hd).symm
    · rw [if_neg hlen]
      constructor
      · exact Or.inl
      · rintro (h | ⟨_, hl, _, _⟩)
        · exact h
        · exact absurd hl hlen

theorem mem_scan_top (files : List String) (d : String) :
    d ∈ (scanState files).topLevelDirs ↔
      ∃ p ∈ fileListOf files,
        ¬(p = "" ∨ p = ".") ∧ 1 < (splitOnSlash p).length ∧
        (splitOnSlash p).head? = some d ∧ d ≠ "" := by
  have main : ∀ (l : List String) (st : ScanState),
      d ∈ (l.foldl scanFile st).topLevelDirs ↔
        (d ∈ st.topLevelDirs ∨
          ∃ p ∈ l, ¬(p = "" ∨ p = ".") ∧ 1 < (splitOnSlash p).length ∧
            (splitOnSlash p).head? = some d ∧ d ≠ "") := by
    intro l
    induction l with
    | nil => intro st; simp
    | cons p rest ih =>
      intro st
      rw [List.foldl_cons, ih, scanFile_top]
      constructor
      · rintro ((h | hc) | ⟨q, hq, hqc⟩)
        · exact Or.inl h
        · exact Or.inr ⟨p, List.mem_cons_self p rest, hc⟩
        · exact Or.inr ⟨q, List.mem_cons_of_mem p hq, hqc⟩
      · rintro (h | ⟨q, hq, hqc⟩)
        · exact Or.inl (Or.inl h)
        · rcases List.mem_cons.mp hq with rfl | hq'
          · exact Or.inl (Or.inr hqc)
          · exact Or.inr ⟨q, hq', hqc⟩
  unfold scanState
  rw [main (fileListOf files) ⟨[], [], []⟩]
  simp

theorem markerOfBasename_mem {b : String} {lang : KnownLanguage}
    (h : markerOfBasename b = some lang) : b ∈ markerNames := by
  unfold markerOfBasename at h
  by_cases h1 : (b == "package.json") = true
  · simp only [markerNames, PYPROJECT_FILES]
    simp only [List.mem_append, List.mem_cons]
    exact Or.inl (Or.inl (by simpa using h1))
  · rw [if_neg h1] at h
    by_cases h2 : (b == "go.mod") = true
    · simp only [markerNames, PYPROJECT_FILES]
      simp only [List.mem_append, List.mem_cons]
      exact Or.inl (Or.inr (by simp [(by simpa using h2 : b = "go.mod")]))
    · rw [if_neg h2] at h
      by_cases h3 : PYPROJECT_FILES.contains b = true
      · simp only [markerNames]
        exact List.mem_append.mpr (Or.inr (by simpa using h3))
      · rw [if_neg h3] at h
        cases h

theorem scanFile_marker_keys (st : ScanState) (p k : String)
    (h : k ∈ (scanFile st p).markerMap.map Prod.fst) :
    k ∈ st.markerMap.map Prod.fst ∨
      (¬(p = "" ∨ p = ".") ∧ basename p ∈ markerNames ∧
       k = ModuleDetector.normalizeDirPath (dirname p)) := by
  by_cases hval : (p == "" || p == ".") = true
  · rw [show scanFile st p = st by unfold scanFile; rw [if_pos hval]] at h
    exact Or.inl h
  · have hvalid : ¬(p = "" ∨ p = ".") := fun hcon =>
      hval (by rcases hcon with h | h <;> simp [h])
    have hsf : (scanFile st p).markerMap =
        (match markerOfBasename (basename p) with
         | some lang =>
           updateAssoc st.markerMap
             (ModuleDetector.normalizeDirPath (dirname p))
             (fun o => markerAdd o lang)
         | none => st.markerMap) := by
      unfold scanFile
      rw [if_neg hval]
    rw [hsf] at h
    rcases hm : markerOfBasename (basename p) with _ | lang
    · rw [hm] at h
      exact Or.inl h
    · rw [hm] at h
      dsimp only at h
      rcases mem_updateAssoc_keys.mp h with h' | rfl
      · exact Or.inl h'
      · exact Or.inr ⟨hvalid, markerOfBasename_mem hm, rfl⟩

theorem scan_marker_keys (files : List String) (k : String)
    (h : k ∈ (scanState files).markerMap.map Prod.fst) :
    ∃ p ∈ fileListOf files,
      ¬(p = "" ∨ p = ".") ∧ basename p ∈ markerNames ∧
      k = ModuleDetector.normalizeDirPath (dirname p) := by
  have main : ∀ (l : List String) (st : ScanState),
      k ∈ (l.foldl scanFile st).markerMap.map Prod.fst →
      (k ∈ st.markerMap.map Prod.fst ∨
        ∃ p ∈ l, ¬(p = "" ∨ p = ".") ∧ basename p ∈ markerNames ∧
          k = ModuleDetector.normalizeDirPath (dirname p)) := by
    intro l
    induction l with
    | nil => intro st h'; exact Or.inl h'
    | cons p rest ih =>
      intro st h'
      rw [List.foldl_cons] at h'
      rcases ih (scanFile st p) h' with h'' | ⟨q, hq, hqc⟩
      · rcases scanFile_marker_keys st p k h'' with h3 | h3
        · exact Or.inl h3
        · exact Or.inr ⟨p, List.mem_cons_self p rest, h3⟩
      · exact Or.inr ⟨q, List.mem_cons_of_mem p hq, hqc⟩
  have h2 := main (fileListOf files) ⟨[], [], []⟩ h
  rcases h2 with h3 | h3
  · simp at h3
  · exact h3

theorem mem_detectModules_paths (repoName : String) (files : List String)
    (cfg : WorkspaceConfig) (wp fb : List String)
    (nameOf : String → Option String) (r : String) :
    r ∈ (detectModules repoName files cfg wp fb nameOf).map ModuleInfo.path ↔
      ∃ p ∈ fileListOf files, ¬(p = "" ∨ p = ".") ∧
        resolveModuleRoot p (detectCandidateRoots files cfg wp fb) = r := by
  have hdet : detectModules repoName files cfg wp fb nameOf =
      (sortStrings ((buildModuleMap (detectCandidateRoots files cfg wp fb)
        (fileListOf files)).map Prod.fst)).filterMap
        (moduleEntryFor (scanState files) repoName nameOf
          (buildModuleMap (detectCandidateRoots files cfg wp fb)
            (fileListOf files))) := rfl
  have hall : ∀ mp ∈ sortStrings ((buildModuleMap
      (detectCandidateRoots files cfg wp fb) (fileListOf files)).map
        Prod.fst),
      mp ∈ (buildModuleMap (detectCandidateRoots files cfg wp fb)
        (fileListOf files)).map Prod.fst :=
    fun mp h => (sortStrings_mem _ _).mp h
  have hfm := filterMap_moduleEntry_map (scanState files) repoName nameOf
    (buildModuleMap (detectCandidateRoots files cfg wp fb)
      (fileListOf files)) _ hall
  rw [hdet, hfm.1, sortStrings_mem, mem_buildModuleMap_keys]

/-- The candidate-root computation specialized to an empty workspace
configuration, no caller patterns and an empty fallback list: only marker
directories, the top-level fallback and `"."` remain. -/
def c9RootsOfScan (st : ScanState) : List String :=
  let roots0 := dedupFirst (st.markerMap.map Prod.fst)
  let roots3 :=
    if (!st.markerMap.any (fun kv => !(kv.1 == ".")) && !(false : Bool) &&
        decide (0 < st.topLevelDirs.length)) = true
    then st.topLevelDirs.foldl insertNew roots0
    else roots0
  insertNew roots3 "."

theorem detectCandidateRoots_c9_eq (files : List String) :
    detectCandidateRoots files ⟨[], []⟩ [] [] =
      c9RootsOfScan (scanState files) := rfl

theorem root_mem_c9Roots (st : ScanState) : "." ∈ c9RootsOfScan st := by
  unfold c9RootsOfScan
  exact mem_insertNew.mpr (Or.inr rfl)

theorem mem_c9Roots_cases {st : ScanState} {d : String}
    (h : d ∈ c9RootsOfScan st) :
    d ∈ st.markerMap.map Prod.fst ∨ d ∈ st.topLevelDirs ∨ d = "." := by
  unfold c9RootsOfScan at h
  rcases mem_insertNew.mp h with h | rfl
  · by_cases hcond : (!st.markerMap.any (fun kv => !(kv.1 == ".")) &&
        !(false : Bool) && decide (0 < st.topLevelDirs.length)) = true
    · rw [if_pos hcond] at h
      rcases (mem_foldl_insertNew _ _ _).mp h with h' | h'
      · exact Or.inl (mem_dedupFirst.mp h')
      · exact Or.inr (Or.inl h')
    · rw [if_neg hcond] at h
      exact Or.inl (mem_dedupFirst.mp h)
  · exact Or.inr (Or.inr rfl)

theorem tops_subset_c9Roots {st : ScanState} {d : String}
    (hmark : ∀ k ∈ st.markerMap.map Prod.fst, k = ".")
    (hd : d ∈ st.topLevelDirs) : d ∈ c9RootsOfScan st := by
  unfold c9RootsOfScan
  apply mem_insertNew.mpr
  left
  have hany : st.markerMap.any (fun kv => !(kv.1 == ".")) = false := by
    rw [List.any_eq_false]
    intro kv hkv
    have := hmark kv.1 (List.mem_map.mpr ⟨kv, hkv, rfl⟩)
    simp [this]
  have hlen : decide (0 < st.topLevelDirs.length) = true := by
    simp [List.length_pos]
    exact List.ne_nil_of_mem hd
  rw [if_pos (by rw [hany, hlen]; rfl)]
  exact (mem_foldl_insertNew _ _ _).mpr (Or.inr hd)

theorem c9Roots_no_slash (files : List String)
    (hmark : ∀ k ∈ (scanState files).markerMap.map Prod.fst, k = ".") :
    ∀ r ∈ c9RootsOfScan (scanState files), ('/' ∈ r.data) → False := by
  intro r hr hslash
  rcases mem_c9Roots_cases hr with h | h | rfl
  · rw [hmark r h] at hslash
    simp at hslash
  · rcases (mem_scan_top files r).mp h with ⟨p, _, _, _, hhd, _⟩
    have hrmem : r ∈ splitOnSlash p := by
      rcases hsp : splitOnSlash p with _ | ⟨a, rest⟩
      · rw [hsp, List.head?_nil] at hhd
        cases hhd
      · rw [hsp, List.head?_cons] at hhd
        rw [← Option.some.inj hhd]
        exact List.mem_cons_self a rest
    exact splitOnSlash_no_slash hrmem hslash
  · simp at hslash

theorem resolveModuleRoot_single (p : String) (roots : List String)
    (h : (splitOnSlash p).length ≤ 1) : resolveModuleRoot p roots = "." := by
  unfold resolveModuleRoot
  rcases hsp : splitOnSlash p with _ | ⟨a, rest⟩
  · rfl
  · rcases rest with _ | ⟨b, rest2⟩
    · rfl
    · rw [hsp] at h; simp at h

theorem c9_resolve (files : List String)
    (hmark : ∀ k ∈ (scanState files).markerMap.map Prod.fst, k = ".")
    (p : String) (hp : p ∈ fileListOf files) (hval : ¬(p = "" ∨ p = "."))
    (hlen : 1 < (splitOnSlash p).length)
    (hhead : ∀ t, (splitOnSlash p).head? = some t → t ≠ "") :
    resolveModuleRoot p (detectCandidateRoots files ⟨[], []⟩ [] []) =
      (splitOnSlash p).headI := by
  rw [detectCandidateRoots_c9_eq]
  rcases hsegs : splitOnSlash p with _ | ⟨s1, rest⟩
  · exfalso
    unfold splitOnSlash at hsegs
    exact splitChars_ne_nil '/' p.data (List.map_eq_nil_iff.mp hsegs)
  · rcases rest with _ | ⟨s2, rest2⟩
    · rw [hsegs] at hlen; simp at hlen
    · have hs1top : s1 ∈ (scanState files).topLevelDirs := by
        apply (mem_scan_top files s1).mpr
        exact ⟨p, hp, hval, hlen, by rw [hsegs]; rfl,
          hhead s1 (by rw [hsegs]; rfl)⟩
      have hs1root : s1 ∈ c9RootsOfScan (scanState files) :=
        tops_subset_c9Roots hmark hs1top
      unfold resolveModuleRoot
      rw [hsegs]
      have hdl : (s1 :: s2 :: rest2).dropLast =
          s1 :: (s2 :: rest2).dropLast := rfl
      rw [hdl, List.reverse_cons]
      rw [resolveUp_clean _ (c9Roots_no_slash files hmark) _ s1]
      rw [if_pos (by simpa using hs1root)]
      rfl

/-- C9, counterexample: with default options (no caller patterns, empty
workspace configuration, the built-in `DEFAULT_WORKSPACE_PATTERNS` as
fallback) a config-less repository with files `src/a.ts` and `lib/b.ts`
collapses into the single root module — `src` and `lib` do *not* become
modules, because the nonempty fallback patterns count as workspace hints
(`hasWorkspaceHints` is true) and the top-level fallback branch never
runs. -/
theorem c9_counterexample :
    detectModules "repo" ["src/a.ts", "lib/b.ts"] ⟨[], []⟩ []
        DEFAULT_WORKSPACE_PATTERNS (fun _ => none) =
      [⟨"repo", ".", "node", 2⟩] ∧
    "src" ∉ (detectModules "repo" ["src/a.ts", "lib/b.ts"] ⟨[], []⟩ []
        DEFAULT_WORKSPACE_PATTERNS (fun _ => none)).map ModuleInfo.path ∧
    "lib" ∉ (detectModules "repo" ["src/a.ts", "lib/b.ts"] ⟨[], []⟩ []
        DEFAULT_WORKSPACE_PATTERNS (fun _ => none)).map ModuleInfo.path :=
  ⟨by decide, by decide, by decide⟩

/-- C9 (amended): the top-level fallback fires only when there are no
workspace hints at all, which under default options never happens (the
built-in fallback patterns are themselves hints).  When `detectModules`
runs with an empty workspace configuration, no caller patterns, an *empty*
fallback pattern list, and no language-marker file outside the repository
root, every top-level directory becomes a candidate module root (and these
plus `"."` are the only candidates), every nested file resolves to its
top-level directory, root-level files resolve to `"."`, and each populated
top-level directory appears as a module of the result. -/
theorem c9_top_level_fallback (repoName : String) (files : List String)
    (nameOf : String → Option String)
    (hm : ∀ p ∈ fileListOf files, ¬(p = "" ∨ p = ".") →
      basename p ∈ markerNames → (splitOnSlash p).length ≤ 1) :
    ("." ∈ detectCandidateRoots files ⟨[], []⟩ [] []) ∧
    (∀ d ∈ detectCandidateRoots files ⟨[], []⟩ [] [],
      d = "." ∨ d ∈ (scanState files).topLevelDirs) ∧
    (∀ d ∈ (scanState files).topLevelDirs,
      d ∈ detectCandidateRoots files ⟨[], []⟩ [] []) ∧
    (∀ p ∈ fileListOf files, ¬(p = "" ∨ p = ".") →
      1 < (splitOnSlash p).length →
      (∀ t, (splitOnSlash p).head? = some t → t ≠ "") →
      resolveModuleRoot p (detectCandidateRoots files ⟨[], []⟩ [] []) =
        (splitOnSlash p).headI) ∧
    (∀ p, (splitOnSlash p).length ≤ 1 →
      resolveModuleRoot p (detectCandidateRoots files ⟨[], []⟩ [] []) = ".") ∧
    (∀ d ∈ (scanState files).topLevelDirs,
      d ∈ (detectModules repoName files ⟨[], []⟩ [] [] nameOf).map
        ModuleInfo.path) := by
  have hmarkKeys : ∀ k ∈ (scanState files).markerMap.map Prod.fst,
      k = "." := by
    intro k hk
    rcases scan_marker_keys files k hk with ⟨p, hp, hval, hbn, hkey⟩
    have hlen := hm p hp hval hbn
    have hdn : dirname p = "." := by unfold dirname; rw [if_pos hlen]
    rw [hkey, hdn]
    decide
  refine ⟨mem_root_detectCandidateRoots files ⟨[], []⟩ [] [], ?_, ?_, ?_, ?_, ?_⟩
  · intro d hd
    rw [detectCandidateRoots_c9_eq] at hd
    rcases mem_c9Roots_cases hd with h | h | rfl
    · exact Or.inl (hmarkKeys d h)
    · exact Or.inr h
    · exact Or.inl rfl
  · intro d hd
    rw [detectCandidateRoots_c9_eq]
    exact tops_subset_c9Roots hmarkKeys hd
  · intro p hp hval hlen hhead
    exact c9_resolve files hmarkKeys p hp hval hlen hhead
  · intro p hlen
    exact resolveModuleRoot_single p _ hlen
  · intro d hd
    rcases (mem_scan_top files d).mp hd with ⟨p, hp, hval, hlen, hhd, hdne⟩
    have hres : resolveModuleRoot p
        (detectCandidateRoots files ⟨[], []⟩ [] []) = d := by
      have hheadI : (splitOnSlash p).headI = d := by
        rcases hsp : splitOnSlash p with _ | ⟨a, rest⟩
        · rw [hsp, List.head?_nil] at hhd; cases hhd
        · rw [hsp, List.head?_cons] at hhd
          rw [Option.some.inj hhd]
          rfl
      rw [c9_resolve files hmarkKeys p hp hval hlen
        (fun t ht => by
          rw [hhd] at ht
          rw [← Option.some.inj ht]
          exact hdne)]
      exact hheadI
    exact (mem_detectModules_paths repoName files ⟨[], []⟩ [] [] nameOf
      d).mpr ⟨p, hp, hval, hres⟩

theorem c9_witness :
    (∀ p ∈ fileListOf ["src/a.ts", "lib/b.ts"], ¬(p = "" ∨ p = ".") →
      basename p ∈ markerNames → (splitOnSlash p).length ≤ 1) ∧
    "src" ∈ (scanState ["src/a.ts", "lib/b.ts"]).topLevelDirs ∧
    "src" ∈ (detectModules "repo" ["src/a.ts", "lib/b.ts"] ⟨[], []⟩ [] []
      (fun _ => none)).map ModuleInfo.path :=
  ⟨by decide, by decide,
    (c9_top_level_fallback "repo" ["src/a.ts", "lib/b.ts"] (fun _ => none)
      (by decide)).2.2.2.2.2 "src" (by decide)⟩

theorem c5_witness :
    "pkg/b.ts" ∈ validFiles ["a.ts", "pkg/b.ts"] ∧
    resolveModuleRoot "pkg/b.ts"
        (detectCandidateRoots ["a.ts", "pkg/b.ts"] ⟨[], []⟩ [] []) ∈
      (detectModules "r" ["a.ts", "pkg/b.ts"] ⟨[], []⟩ [] []
        (fun _ => none)).map ModuleInfo.path :=
  ⟨by decide,
    (c5_module_assignment "r" ["a.ts", "pkg/b.ts"] ⟨[], []⟩ [] []
      (fun _ => none)).2.2.1 "pkg/b.ts" (by decide)⟩

/-! ## Incremental update orchestrator (`cli/src/index.ts`)

The CLI's `normalizePosixPath`, `compareNames` and `resolveModuleRoot` are
the same functions as above.  `updateMode` captures the full-versus-
incremental decision of the `update` action (lines 411-446);
`incrementalChangedModules` the affected-module computation of its
incremental branch (lines 448-503); `mergeModuleKeywords` (lines 227-241)
and `buildModuleIndex` (module-index.ts) the carry-forward merge.  The
keyword extractor is an external collaborator: per the spec's interface
contract (§6) it must only recompute data for the handed-over module
paths, which enters the theorems as a hypothesis on its output (the copy
of `keyword-extractor.ts` in the repository predates the `includeModules`
option and only its caller is present). -/

def LARGE_CHANGE_RATIO : ℚ := 0.25

def LARGE_CHANGE_COUNT : Nat := 5000

def WORKSPACE_CONFIG_FILES : List String :=
  ["pnpm-workspace.yaml", "lerna.json", "rush.json", "nx.json",
   "workspace.json"]

/-- `isWorkspaceConfigChange` (lines 195-202). -/
def isWorkspaceConfigChange (filePath : String) : Bool :=
  let normalized := normalizePosixPath filePath
  if normalized == "package.json" then true
  else if normalized.data.contains '/' then false
  else WORKSPACE_CONFIG_FILES.contains normalized

inductive UpdateMode where
  | full
  | incremental
deriving DecidableEq

/-- `new Set([...added, ...modified, ...deleted])`. -/
def changedPathsOf (added modified deleted : List String) : List String :=
  dedupFirst (added ++ modified ++ deleted)

/-- The mode decision of `update` (lines 420-443): `full` iff no previous
module catalogue, or a workspace-config file changed, or the change is
large (absolute count, or ratio against the current file total floored at
one, `currentIndex.files.length || 1`). -/
def updateMode (hasPreviousModuleIndex : Bool)
    (added modified deleted : List String) (totalCurrentFiles : Nat) :
    UpdateMode :=
  let changedPaths := changedPathsOf added modified deleted
  let changedCount := changedPaths.length
  let totalFiles := if totalCurrentFiles == 0 then 1 else totalCurrentFiles
  let largeChange : Prop :=
    changedCount ≥ LARGE_CHANGE_COUNT ∨
    ((changedCount : ℚ) / (totalFiles : ℚ) ≥ LARGE_CHANGE_RATIO)
  let workspaceChanged := changedPaths.any isWorkspaceConfigChange
  if hasPreviousModuleIndex = false ∨ workspaceChanged = true ∨ largeChange
  then .full else .incremental

structure ModuleKeywords where
  path : String
  keywords : List String
deriving DecidableEq

structure ModuleIndexEntry where
  name : String
  path : String
  language : String
  fileCount : Nat
  keywords : List String
deriving DecidableEq

structure ModuleIndex where
  modules : List ModuleIndexEntry
deriving DecidableEq

/-- `new Map(keywords.map(e => [e.path, e.keywords])).get(p)` (last binding
wins). -/
def keywordsFor (keywords : List ModuleKeywords) (p : String) :
    Option (List String) :=
  (keywords.reverse.find? (fun e => e.path == p)).map ModuleKeywords.keywords

/-- The previous run's path→keywords map (lines 232-234 / 452-454). -/
def prevKeywordsFor (previous : Option ModuleIndex) (p : String) :
    Option (List String) :=
  match previous with
  | none => none
  | some idx =>
    (idx.modules.reverse.find? (fun e => e.path == p)).map
      ModuleIndexEntry.keywords

/-- `mergeModuleKeywords` (lines 227-241): updated keywords win, else the
previous run's, else empty. -/
def mergeModuleKeywords (modules : List ModuleInfo)
    (previous : Option ModuleIndex) (updatedKeywords : List ModuleKeywords) :
    List ModuleKeywords :=
  modules.map fun m =>
    ⟨m.path,
      match keywordsFor updatedKeywords m.path with
      | some k => k
      | none =>
        match prevKeywordsFor previous m.path with
        | some k => k
        | none => []⟩

/-- `buildModuleIndex` (module-index.ts): join modules with their keywords,
sort by path. -/
def buildModuleIndex (modules : List ModuleInfo)
    (keywords : List ModuleKeywords) : ModuleIndex :=
  ⟨sortByKey ModuleIndexEntry.path
    (modules.map fun m =>
      ⟨m.name, m.path, m.language, m.fileCount,
        (keywordsFor keywords m.path).getD []⟩)⟩

/-- `modulePathSet` (lines 224-225) followed by `.add(".")`. -/
def modulePathSetDot (paths : List String) : List String :=
  insertNew (dedupFirst (paths.map normalizePosixPath)) "."

/-- The affected-module computation of the incremental branch (lines
448-503): modules new in the current catalogue, modules without previous
keyword data, and — for every changed path — its owning module root under
both the current and the previous root sets; finally filtered to roots of
the current catalogue and sorted (`includeModules`).  Insertion order of
the JS `Set` is irrelevant because of the final sort. -/
def incrementalChangedModules (modules : List ModuleInfo)
    (previousModuleIndex : ModuleIndex) (changedPaths : List String) :
    List String :=
  let modulePaths := modulePathSetDot (modules.map ModuleInfo.path)
  let previousModulePaths :=
    modulePathSetDot (previousModuleIndex.modules.map ModuleIndexEntry.path)
  let fromModules := modules.foldl
    (fun acc m =>
      let acc1 := if previousModulePaths.contains m.path then acc
        else insertNew acc m.path
      if previousModuleIndex.modules.any (fun e => e.path == m.path) then acc1
      else insertNew acc1 m.path)
    []
  let withResolved := changedPaths.foldl
    (fun acc p =>
      let acc1 := insertNew acc
        (resolveModuleRoot (normalizePosixPath p) modulePaths)
      insertNew acc1
        (resolveModuleRoot (normalizePosixPath p) previousModulePaths))
    fromModules
  let filtered := withResolved.filter (fun mp => modulePaths.contains mp)
  sortStrings filtered

/-- The claim's trigger condition transcribed from the spec's words, for
comparison with `updateMode`: the ratio trigger reads "one quarter of
total current files", with no floor on the total. -/
def claimedFullTrigger (hasPreviousModuleIndex : Bool)
    (added modified deleted : List String) (totalCurrentFiles : Nat) :
    Prop :=
  hasPreviousModuleIndex = false ∨
  (∃ p ∈ changedPathsOf added modified deleted,
    isWorkspaceConfigChange p = true) ∨
  (changedPathsOf added modified deleted).length ≥ LARGE_CHANGE_COUNT ∨
  (((changedPathsOf added modified deleted).length : ℚ) ≥
    LARGE_CHANGE_RATIO * (totalCurrentFiles : ℚ))

/-- On an empty repository with no changes and a previous module catalogue
the code stays incremental, yet the claim's ratio trigger
(count ≥ quarter of total current files, i.e. 0 ≥ 0) fires. -/
theorem c6_counterexample :
    updateMode true [] [] [] 0 = .incremental ∧
    claimedFullTrigger true [] [] [] 0 := by
  constructor
  · simp only [updateMode, changedPathsOf, dedupFirst, List.append_nil,
      List.nil_append, List.foldl_nil, List.length_nil, List.any_nil]
    rw [if_neg]
    rintro (h | h | h | h)
    · exact absurd h (by decide)
    · exact absurd h (by decide)
    · exact absurd h (by decide)
    · norm_num [ LARGE_CHANGE_RATIO] at h
  · refine Or.inr (Or.inr (Or.inr ?_))
    norm_num [changedPathsOf, dedupFirst, LARGE_CHANGE_RATIO]

/-- C6: `updateMode` is `full` exactly when there is no previous module
catalogue, or a changed path is a workspace-config file, or the distinct
changed-path count reaches the absolute threshold 5000, or it reaches a
quarter of the current file total FLOORED AT ONE (`files.length || 1`);
the decision never looks at which modules the changed files belong to, so
the ratio trigger forces `full` even when every changed file lies in one
module. -/
theorem c6_full_mode_iff (hasPrev : Bool)
    (added modified deleted : List String) (total : Nat) :
    updateMode hasPrev added modified deleted total = .full ↔
      (hasPrev = false ∨
       (∃ p ∈ changedPathsOf added modified deleted,
         isWorkspaceConfigChange p = true) ∨
       (changedPathsOf added modified deleted).length ≥ LARGE_CHANGE_COUNT ∨
       (((changedPathsOf added modified deleted).length : ℚ) ≥
         LARGE_CHANGE_RATIO * ((max total 1 : Nat) : ℚ))) := by
  have htf : (if (total == 0) = true then 1 else total) = max total 1 := by
    cases total <;> simp [Nat.max_def]
  have hpos : (0 : ℚ) < ((max total 1 : Nat) : ℚ) := by
    have h1 : (1 : Nat) ≤ max total 1 := le_max_right _ _
    exact_mod_cast Nat.lt_of_lt_of_le Nat.zero_lt_one h1
  have hratio :
      (((changedPathsOf added modified deleted).length : ℚ) /
          ((max total 1 : Nat) : ℚ) ≥ LARGE_CHANGE_RATIO) ↔
      (((changedPathsOf added modified deleted).length : ℚ) ≥
          LARGE_CHANGE_RATIO * ((max total 1 : Nat) : ℚ)) := by
    rw [ge_iff_le, le_div_iff₀ hpos, ge_iff_le]
  have hws :
      ((changedPathsOf added modified deleted).any isWorkspaceConfigChange
        = true) ↔
      (∃ p ∈ changedPathsOf added modified deleted,
        isWorkspaceConfigChange p = true) := List.any_eq_true
  simp only [updateMode, htf]
  constructor
  · intro h
    by_cases hc : hasPrev = false ∨
        (changedPathsOf added modified deleted).any isWorkspaceConfigChange
          = true ∨
        ((changedPathsOf added modified deleted).length ≥ LARGE_CHANGE_COUNT ∨
         ((changedPathsOf added modified deleted).length : ℚ) /
           ((max total 1 : Nat) : ℚ) ≥ LARGE_CHANGE_RATIO)
    · rcases hc with hc | hc | hc | hc
      · exact Or.inl hc
      · exact Or.inr (Or.inl (hws.mp hc))
      · exact Or.inr (Or.inr (Or.inl hc))
      · exact Or.inr (Or.inr (Or.inr (hratio.mp hc)))
    · rw [if_neg hc] at h
      exact absurd h (by decide)
  · intro h
    rw [if_pos]
    rcases h with h | h | h | h
    · exact Or.inl h
    · exact Or.inr (Or.inl (hws.mpr h))
    · exact Or.inr (Or.inr (Or.inl h))
    · exact Or.inr (Or.inr (Or.inr (hratio.mpr h)))

theorem insertNew_eq_ite (l : List String) (x : String) :
    insertNew l x = if x ∈ l then l else l ++ [x] := by
  unfold insertNew
  by_cases h : x ∈ l
  · rw [if_pos (by simpa using h), if_pos h]
  · rw [if_neg (by simpa using h), if_neg h]

theorem insertNew_of_mem {l : List String} {x : String} (h : x ∈ l) :
    insertNew l x = l := by
  rw [insertNew_eq_ite, if_pos h]

theorem insertNew_nil (x : String) : insertNew [] x = [x] := rfl

/-- Two normalized, distinct, non-root module paths yield the three-element
root set `{A, B, "."}` on both sides of the incremental comparison. -/
theorem modulePathSetDot_pair {A B : String}
    (hA : normalizePosixPath A = A) (hB : normalizePosixPath B = B)
    (hAB : A ≠ B) (hAdot : A ≠ ".") (hBdot : B ≠ ".") :
    modulePathSetDot [A, B] = [A, B, "."] := by
  simp [modulePathSetDot, dedupFirst, insertNew_eq_ite, hA, hB,
    Ne.symm hAB, Ne.symm hAdot, Ne.symm hBdot]

theorem foldl_resolve_const {A B : String} :
    ∀ (l : List String),
      (∀ p ∈ l, resolveModuleRoot (normalizePosixPath p) [A, B, "."] = A) →
      ∀ acc, A ∈ acc →
      l.foldl (fun acc p =>
        insertNew
          (insertNew acc (resolveModuleRoot (normalizePosixPath p) [A, B, "."]))
          (resolveModuleRoot (normalizePosixPath p) [A, B, "."])) acc = acc := by
  intro l
  induction l with
  | nil => intro _ acc _; rfl
  | cons c rest ih =>
    intro hl acc hmem
    rw [List.foldl_cons]
    have hc := hl c (List.mem_cons_self c rest)
    rw [hc, insertNew_of_mem hmem, insertNew_of_mem hmem]
    exact ih (fun p hp => hl p (List.mem_cons_of_mem c hp)) acc hmem

theorem incremental_single_changed {A B : String}
    {mA mB : ModuleInfo} {pA pB : ModuleIndexEntry} {changed : List String}
    (hmA : mA.path = A) (hmB : mB.path = B)
    (hpA : pA.path = A) (hpB : pB.path = B)
    (hA : normalizePosixPath A = A) (hB : normalizePosixPath B = B)
    (hAB : A ≠ B) (hAdot : A ≠ ".") (hBdot : B ≠ ".")
    (hne : changed ≠ [])
    (hres : ∀ p ∈ changed,
      resolveModuleRoot (normalizePosixPath p) [A, B, "."] = A) :
    incrementalChangedModules [mA, mB] ⟨[pA, pB]⟩ changed = [A] := by
  have hMP := modulePathSetDot_pair hA hB hAB hAdot hBdot
  unfold incrementalChangedModules
  simp only [List.map_cons, List.map_nil, hmA, hmB, hpA, hpB, hMP,
    List.foldl_cons, List.foldl_nil, List.any_cons, List.any_nil,
    beq_self_eq_true, Bool.true_or, Bool.or_true, if_true]
  have hcA : ([A, B, "."].contains A) = true := by simp
  have hcB : ([A, B, "."].contains B) = true := by simp
  rw [if_pos hcB, if_pos hcA]
  obtain ⟨c, rest, rfl⟩ := List.exists_cons_of_ne_nil hne
  rw [List.foldl_cons, hres c (List.mem_cons_self c rest), insertNew_nil,
    insertNew_of_mem (List.mem_singleton_self A),
    foldl_resolve_const rest
      (fun p hp => hres p (List.mem_cons_of_mem c hp)) [A]
      (List.mem_singleton_self A)]
  rw [List.filter_cons, if_pos (by simp)]
  rfl

theorem keywordsFor_eq_none {updated : List ModuleKeywords} {A B : String}
    (hupd : ∀ e ∈ updated, e.path = A) (hAB : A ≠ B) :
    keywordsFor updated B = none := by
  have h0 : (updated.reverse.find? (fun e => e.path == B)) = none := by
    rw [List.find?_eq_none]
    intro e he
    have hp := hupd e (List.mem_reverse.mp he)
    simp [hp, hAB]
  unfold keywordsFor
  rw [h0]
  rfl

theorem prevKeywordsFor_pair_fst {pA pB : ModuleIndexEntry}
    {A B : String} {kA : List String}
    (hpA : pA.path = A) (hpAk : pA.keywords = kA) (hpB : pB.path = B)
    (hAB : A ≠ B) :
    prevKeywordsFor (some ⟨[pA, pB]⟩) A = some kA := by
  have hba : (B == A) = false := by
    simp [Ne.symm hAB]
  unfold prevKeywordsFor
  simp [List.find?, hpA, hpAk, hpB, hba]

theorem prevKeywordsFor_pair_snd (pA pB : ModuleIndexEntry)
    {B : String} {kB : List String}
    (hpB : pB.path = B) (hpBk : pB.keywords = kB) :
    prevKeywordsFor (some ⟨[pA, pB]⟩) B = some kB := by
  unfold prevKeywordsFor
  simp [List.find?, hpB, hpBk]

theorem merge_pair {A B : String} {kA kB : List String}
    {mA mB : ModuleInfo} {pA pB : ModuleIndexEntry}
    {updated : List ModuleKeywords}
    (hmA : mA.path = A) (hmB : mB.path = B)
    (hpA : pA.path = A) (hpAk : pA.keywords = kA)
    (hpB : pB.path = B) (hpBk : pB.keywords = kB)
    (hAB : A ≠ B) (hupd : ∀ e ∈ updated, e.path = A) :
    mergeModuleKeywords [mA, mB] (some ⟨[pA, pB]⟩) updated =
      [⟨A, (keywordsFor updated A).getD kA⟩, ⟨B, kB⟩] := by
  have hkB := keywordsFor_eq_none hupd hAB
  have hpF := prevKeywordsFor_pair_fst hpA hpAk hpB hAB
  have hpS := prevKeywordsFor_pair_snd pA pB hpB hpBk
  unfold mergeModuleKeywords
  simp only [List.map_cons, List.map_nil, hmA, hmB, hkB, hpS]
  cases hu : keywordsFor updated A <;> simp [hu, hpF]

/-- C4: in an incremental update whose previous catalogue holds exactly the
modules `A` and `B` (normalized, distinct, neither the repository root) and
whose changed paths all resolve to `A` under the shared root set
`{A, B, "."}`, the sorted affected-module list handed to the keyword
extractor (`includeModules`) is exactly `[A]`; and — the extractor
returning data only for handed-over modules, per its interface contract —
the merged keyword entries keep module `B`'s previous keywords unchanged,
as does `B`'s entry in the rebuilt module index. -/
theorem c4_incremental_frame (A B : String) (kA kB : List String)
    (mA mB : ModuleInfo) (pA pB : ModuleIndexEntry)
    (changed : List String) (updated : List ModuleKeywords)
    (hmA : mA.path = A) (hmB : mB.path = B)
    (hpA : pA.path = A) (hpAk : pA.keywords = kA)
    (hpB : pB.path = B) (hpBk : pB.keywords = kB)
    (hA : normalizePosixPath A = A) (hB : normalizePosixPath B = B)
    (hAB : A ≠ B) (hAdot : A ≠ ".") (hBdot : B ≠ ".")
    (hne : changed ≠ [])
    (hres : ∀ p ∈ changed,
      resolveModuleRoot (normalizePosixPath p) [A, B, "."] = A)
    (hupd : ∀ e ∈ updated, e.path = A) :
    incrementalChangedModules [mA, mB] ⟨[pA, pB]⟩ changed = [A] ∧
    mergeModuleKeywords [mA, mB] (some ⟨[pA, pB]⟩) updated =
      [⟨A, (keywordsFor updated A).getD kA⟩, ⟨B, kB⟩] ∧
    (∃ e ∈ (buildModuleIndex [mA, mB]
        (mergeModuleKeywords [mA, mB] (some ⟨[pA, pB]⟩) updated)).modules,
      e.name = mB.name ∧ e.path = B ∧ e.fileCount = mB.fileCount ∧
      e.keywords = kB) := by
  have hmerge := merge_pair hmA hmB hpA hpAk hpB hpBk hAB hupd
  refine ⟨incremental_single_changed hmA hmB hpA hpB hA hB hAB hAdot hBdot
    hne hres, hmerge, ?_⟩
  have hkm : keywordsFor
      (mergeModuleKeywords [mA, mB] (some ⟨[pA, pB]⟩) updated) B = some kB := by
    rw [hmerge]
    unfold keywordsFor
    simp
  refine ⟨⟨mB.name, B, mB.language, mB.fileCount, kB⟩, ?_, rfl, rfl, rfl, rfl⟩
  unfold buildModuleIndex
  rw [sortByKey_mem]
  simp [hmB, hkm]

theorem c4_witness :
    incrementalChangedModules
      [⟨"a", "packages/a", "TypeScript", 1⟩,
       ⟨"b", "packages/b", "TypeScript", 1⟩]
      ⟨[⟨"a", "packages/a", "TypeScript", 1, ["alpha"]⟩,
        ⟨"b", "packages/b", "TypeScript", 1, ["beta"]⟩]⟩
      ["packages/a/src/x.ts"] = ["packages/a"] ∧
    mergeModuleKeywords
      [⟨"a", "packages/a", "TypeScript", 1⟩,
       ⟨"b", "packages/b", "TypeScript", 1⟩]
      (some ⟨[⟨"a", "packages/a", "TypeScript", 1, ["alpha"]⟩,
              ⟨"b", "packages/b", "TypeScript", 1, ["beta"]⟩]⟩)
      [⟨"packages/a", ["gamma"]⟩] =
      [⟨"packages/a",
         (keywordsFor [⟨"packages/a", ["gamma"]⟩] "packages/a").getD
           ["alpha"]⟩,
       ⟨"packages/b", ["beta"]⟩] ∧
    (∃ e ∈ (buildModuleIndex
        [⟨"a", "packages/a", "TypeScript", 1⟩,
         ⟨"b", "packages/b", "TypeScript", 1⟩]
        (mergeModuleKeywords
          [⟨"a", "packages/a", "TypeScript", 1⟩,
           ⟨"b", "packages/b", "TypeScript", 1⟩]
          (some ⟨[⟨"a", "packages/a", "TypeScript", 1, ["alpha"]⟩,
                  ⟨"b", "packages/b", "TypeScript", 1, ["beta"]⟩]⟩)
          [⟨"packages/a", ["gamma"]⟩])).modules,
      e.name = "b" ∧ e.path = "packages/b" ∧ e.fileCount = 1 ∧
      e.keywords = ["beta"]) :=
  c4_incremental_frame "packages/a" "packages/b" ["alpha"] ["beta"]
    ⟨"a", "packages/a", "TypeScript", 1⟩ ⟨"b", "packages/b", "TypeScript", 1⟩
    ⟨"a", "packages/a", "TypeScript", 1, ["alpha"]⟩
    ⟨"b", "packages/b", "TypeScript", 1, ["beta"]⟩
    ["packages/a/src/x.ts"] [⟨"packages/a", ["gamma"]⟩]
    rfl rfl rfl rfl rfl rfl (by decide) (by decide) (by decide) (by decide)
    (by decide) (by decide)
    (by
      intro p hp
      rw [List.mem_singleton] at hp
      subst hp
      decide)
    (by
      intro e he
      rw [List.mem_singleton] at he
      subst he
      rfl)

end RepoMap
